import Mathlib

/-!
Verification of the Fuse-UI token normalization pipeline.

This file gives a shallow embedding, in Lean 4, of the parsers, normalizers,
validators and the importer orchestration of the Fuse-UI repository
(`packages/core` and friends), and proves or refutes the frozen claims about
them.  JavaScript numbers are modelled as rationals extended with the
non-finite values (`JNum`); JavaScript runtime values are modelled by the
inductive `JsVal`; JavaScript objects are insertion-ordered association lists.
-/

set_option maxHeartbeats 1000000

/-- JavaScript number: a rational, or one of the non-finite values.
The rational abstraction is exact for every computation appearing in the
embedded code (integer arithmetic, division by 255, decimal literals); order
and NaN-ness transfer faithfully to IEEE doubles on these values. -/
inductive JNum where
  | fin (q : ℚ)
  | nan
  | inf
  | ninf
deriving DecidableEq, Repr

namespace JNum

/-- Division by 255 as in `x / 255` on JS numbers.  On finite values the
quotient is produced through `mkRat`; `div255_fin` below identifies it with
rational division. -/
def div255 : JNum → JNum
  | fin q => fin (mkRat q.num (q.den * 255))
  | nan => nan
  | inf => inf
  | ninf => ninf

/-- `Number.isNaN`. -/
def isNaN : JNum → Bool
  | nan => true
  | _ => false

/-- The channel-bound predicate of the spec: a finite value in `[0,1]`. -/
def inUnit (n : JNum) : Prop := ∃ q : ℚ, n = fin q ∧ 0 ≤ q ∧ q ≤ 1

end JNum

/-- Model of JavaScript runtime values (the `unknown` type of the sources).
Objects are insertion-ordered association lists, mirroring `Object.entries`. -/
inductive JsVal where
  | str (s : String)
  | num (n : JNum)
  | bool (b : Bool)
  | null
  | undef
  | obj (fields : List (String × JsVal))
  | arr (elems : List JsVal)
deriving Repr

namespace JsVal

/-- JavaScript truthiness. -/
def truthy : JsVal → Bool
  | str s => !(s == "")
  | num (JNum.fin q) => !(q == 0)
  | num JNum.nan => false
  | num _ => true
  | bool b => b
  | null => false
  | undef => false
  | obj _ => true
  | arr _ => true

/-- JavaScript `typeof`. -/
def jsTypeof : JsVal → String
  | str _ => "string"
  | num _ => "number"
  | bool _ => "boolean"
  | null => "object"
  | undef => "undefined"
  | obj _ => "object"
  | arr _ => "object"

/-- `value && typeof value === "object"`, the recursion guard used all over
the DTCG code. -/
def isObjTruthy (v : JsVal) : Bool := v.truthy && (v.jsTypeof == "object")

/-- `Object.entries`.  For arrays this is the indexed entries; for
non-objects it is empty. -/
def entriesOf : JsVal → List (String × JsVal)
  | obj fs => fs
  | arr es => (es.enum.map fun p => (toString p.1, p.2))
  | _ => []

/-- Property lookup (`node.key` / `key in node`). -/
def getField (v : JsVal) (k : String) : Option JsVal :=
  (v.entriesOf.find? fun p => p.1 == k).map Prod.snd

end JsVal

/-! ### Character and string helpers (JS primitives) -/

/-- JS whitespace (ASCII fragment of `StrWhiteSpace` / `\s`). -/
def isJsWs (c : Char) : Bool :=
  c == '\x09' || c == '\x20' || c == '\x0a' || c == '\x0d' || c == '\x0b' || c == '\x0c'

def isDigitCh (c : Char) : Bool := 48 ≤ c.toNat && c.toNat ≤ 57

/-- Hexadecimal digit value. -/
def hexVal (c : Char) : Option Nat :=
  let n := c.toNat
  if 48 ≤ n && n ≤ 57 then some (n - 48)
  else if 65 ≤ n && n ≤ 70 then some (n - 55)
  else if 97 ≤ n && n ≤ 102 then some (n - 87)
  else none

def hexDigitsVal (cs : List Char) : ℤ :=
  cs.foldl (fun a c => 16 * a + ((hexVal c).getD 0 : ℤ)) 0

/-- `parseInt(s, 16)`: skip whitespace, optional sign, optional `0x`/`0X`
prefix, then the longest run of hex digits; no digits means NaN. -/
def jsParseInt16 (s : String) : JNum :=
  let cs := s.data.dropWhile isJsWs
  let sgn : ℤ := match cs with
    | '-' :: _ => -1
    | _ => 1
  let cs1 : List Char := match cs with
    | '-' :: r => r
    | '+' :: r => r
    | _ => cs
  let cs2 : List Char := match cs1 with
    | '0' :: 'x' :: r => r
    | '0' :: 'X' :: r => r
    | _ => cs1
  let ds := cs2.takeWhile (fun c => (hexVal c).isSome)
  if ds.isEmpty then JNum.nan else JNum.fin ((sgn * hexDigitsVal ds : ℤ) : ℚ)

def decDigitsVal (cs : List Char) : ℕ :=
  cs.foldl (fun a c => 10 * a + (c.toNat - '0'.toNat)) 0

/-- Does the (whitespace-skipped) input start with a minus sign? -/
def negSign (cs : List Char) : Bool :=
  match cs with
  | c :: _ => c == '-'
  | [] => false

/-- Strip one optional leading sign. -/
def stripSign (cs : List Char) : List Char :=
  match cs with
  | c :: r => if c == '-' || c == '+' then r else cs
  | [] => []

/-- The value of a decimal literal with integer digits `ds` and fractional
digits `fs`, as an exact rational. -/
def decLitVal (neg : Bool) (ds fs : List Char) : ℚ :=
  let n : ℤ := (decDigitsVal ds : ℤ) * (10 : ℤ) ^ fs.length + (decDigitsVal fs : ℤ)
  mkRat (if neg then -n else n) ((10 : ℕ) ^ fs.length)

/-- `Number.parseFloat`: skip whitespace, optional sign, `Infinity` or the
longest prefix that is a decimal literal (no exponent forms arise from the
embedded call sites); nothing parseable means NaN. -/
def jsParseFloat (s : String) : JNum :=
  let cs := s.data.dropWhile isJsWs
  let neg : Bool := negSign cs
  let cs1 : List Char := stripSign cs
  if cs1.take 8 = "Infinity".data then
    if neg then JNum.ninf else JNum.inf
  else
    let ds := cs1.takeWhile isDigitCh
    let r1 := cs1.dropWhile isDigitCh
    if ds.isEmpty then
      match r1 with
      | '.' :: r2 =>
        let fs := r2.takeWhile isDigitCh
        if fs.isEmpty then JNum.nan
        else JNum.fin (decLitVal neg [] fs)
      | _ => JNum.nan
    else
      match r1 with
      | '.' :: r2 =>
        let fs := r2.takeWhile isDigitCh
        JNum.fin (decLitVal neg ds fs)
      | _ => JNum.fin (decLitVal neg ds [])

/-! ### Color parser (`utils/figma/color-parser.ts`) -/

/-- `ColorValue`: the four channels as produced by the code. -/
structure ColorValue where
  r : JNum
  g : JNum
  b : JNum
  a : JNum
deriving DecidableEq, Repr

/-- `hex.replace("#", "")`: JS `String.replace` with a string pattern removes
only the first occurrence. -/
def removeFirstHash (s : String) : String :=
  String.mk (go s.data)
where
  go : List Char → List Char
    | [] => []
    | c :: cs => if c = '#' then cs else c :: go cs

/-- `parseHexColor` from `color-parser.ts`: dispatch on the length of the
string with its first `#` removed; each channel pair goes through
`parseInt(·, 16)` and is divided by 255.  There is no NaN guard. -/
def parseHexColor (hex : String) : Option ColorValue :=
  let hexClean := (removeFirstHash hex).data
  match hexClean with
  | [c0, c1, c2] =>
    some { r := (jsParseInt16 (String.mk [c0, c0])).div255
           g := (jsParseInt16 (String.mk [c1, c1])).div255
           b := (jsParseInt16 (String.mk [c2, c2])).div255
           a := JNum.fin 1 }
  | [c0, c1, c2, c3, c4, c5] =>
    some { r := (jsParseInt16 (String.mk [c0, c1])).div255
           g := (jsParseInt16 (String.mk [c2, c3])).div255
           b := (jsParseInt16 (String.mk [c4, c5])).div255
           a := JNum.fin 1 }
  | [c0, c1, c2, c3, c4, c5, c6, c7] =>
    some { r := (jsParseInt16 (String.mk [c0, c1])).div255
           g := (jsParseInt16 (String.mk [c2, c3])).div255
           b := (jsParseInt16 (String.mk [c4, c5])).div255
           a := (jsParseInt16 (String.mk [c6, c7])).div255 }
  | _ => none

/-- Greedy match of `\d+(?:\.\d+)?`; returns the matched characters and the
rest.  When the optional fractional group fails the dot is left unconsumed,
as a regex engine would. -/
def matchNum (cs : List Char) : Option (List Char × List Char) :=
  let ds := cs.takeWhile isDigitCh
  let r1 := cs.dropWhile isDigitCh
  if ds.isEmpty then none
  else match r1 with
    | '.' :: r2 =>
      let fs := r2.takeWhile isDigitCh
      if fs.isEmpty then some (ds, r1)
      else some (ds ++ '.' :: fs, r2.dropWhile isDigitCh)
    | _ => some (ds, r1)

/-- Case-insensitive literal match. -/
def matchLitCI (lit : List Char) (cs : List Char) : Option (List Char) :=
  match lit, cs with
  | [], rest => some rest
  | _ :: _, [] => none
  | l :: ls, c :: rest => if l.toLower = c.toLower then matchLitCI ls rest else none

def matchChar (ch : Char) (cs : List Char) : Option (List Char) :=
  match cs with
  | c :: rest => if c = ch then some rest else none
  | [] => none

/-- Anchored match of the tail `\s*\(\s*N\s*,\s*N\s*,\s*N` starting after the
literal; returns the three number groups and the rest. -/
def matchRgbTriple (cs : List Char) :
    Option (List Char × List Char × List Char × List Char) := do
  let cs ← matchChar '(' (cs.dropWhile isJsWs)
  let (n1, cs) ← matchNum (cs.dropWhile isJsWs)
  let cs ← matchChar ',' (cs.dropWhile isJsWs)
  let (n2, cs) ← matchNum (cs.dropWhile isJsWs)
  let cs ← matchChar ',' (cs.dropWhile isJsWs)
  let (n3, cs) ← matchNum (cs.dropWhile isJsWs)
  pure (n1, n2, n3, cs)

/-- Anchored match at one start position of
`rgb\s*\(\s*N\s*,\s*N\s*,\s*N\s*\)` (case-insensitive). -/
def matchRgbAt (cs : List Char) : Option (List Char × List Char × List Char) := do
  let cs ← matchLitCI "rgb".data cs
  let (n1, n2, n3, cs) ← matchRgbTriple cs
  let _ ← matchChar ')' (cs.dropWhile isJsWs)
  pure (n1, n2, n3)

/-- `[\d.]+` greedy. -/
def matchDigitsDots (cs : List Char) : Option (List Char × List Char) :=
  let ds := cs.takeWhile (fun c => isDigitCh c || c == '.')
  if ds.isEmpty then none else some (ds, cs.dropWhile (fun c => isDigitCh c || c == '.'))

/-- Anchored match at one start position of
`rgba\s*\(\s*N\s*,\s*N\s*,\s*N\s*(?:,\s*([\d.]+))?\s*\)` (case-insensitive). -/
def matchRgbaAt (cs : List Char) :
    Option (List Char × List Char × List Char × Option (List Char)) := do
  let cs ← matchLitCI "rgba".data cs
  let (n1, n2, n3, cs) ← matchRgbTriple cs
  let cs := cs.dropWhile isJsWs
  match matchChar ',' cs with
  | some cs1 =>
    match matchDigitsDots (cs1.dropWhile isJsWs) with
    | some (a4, cs2) =>
      match matchChar ')' (cs2.dropWhile isJsWs) with
      | some _ => pure (n1, n2, n3, some a4)
      | none => none
    | none => none
  | none =>
    match matchChar ')' cs with
    | some _ => pure (n1, n2, n3, none)
    | none => none

/-- `String.prototype.startsWith` on character lists. -/
def listStartsWith : List Char → List Char → Bool
  | [], _ => true
  | x :: xs, ys =>
    match ys with
    | y :: yt => x == y && listStartsWith xs yt
    | [] => false

/-- Unanchored regex search: try every start position, leftmost first. -/
def scanFor {α : Type} (f : List Char → Option α) : List Char → Option α
  | [] => f []
  | c :: cs =>
    match f (c :: cs) with
    | some x => some x
    | none => scanFor f cs

/-- `parseRgbColor` from `color-parser.ts`. -/
def parseRgbColor (rgb : String) : Option ColorValue :=
  match scanFor matchRgbAt rgb.data with
  | none => none
  | some (n1, n2, n3) =>
    some { r := (jsParseFloat (String.mk n1)).div255
           g := (jsParseFloat (String.mk n2)).div255
           b := (jsParseFloat (String.mk n3)).div255
           a := JNum.fin 1 }

/-- `parseRgbaColor` from `color-parser.ts`: a missing alpha group defaults
to 1; the alpha channel is not divided by 255. -/
def parseRgbaColor (rgba : String) : Option ColorValue :=
  match scanFor matchRgbaAt rgba.data with
  | none => none
  | some (n1, n2, n3, a4) =>
    some { r := (jsParseFloat (String.mk n1)).div255
           g := (jsParseFloat (String.mk n2)).div255
           b := (jsParseFloat (String.mk n3)).div255
           a := match a4 with
                | some s4 => jsParseFloat (String.mk s4)
                | none => JNum.fin 1 }

/-- `parseColor` from `color-parser.ts`: leading-character dispatch.  The
empty string is falsy and yields null. -/
def parseColor (colorString : String) : Option ColorValue :=
  let cs := colorString.data
  if cs.isEmpty then none
  else if listStartsWith ['#'] cs then parseHexColor colorString
  else if listStartsWith "rgba(".data cs then parseRgbaColor colorString
  else if listStartsWith "rgb(".data cs then parseRgbColor colorString
  else none

example : parseColor "#F73" =
    some { r := JNum.fin 1, g := JNum.fin (mkRat 119 255), b := JNum.fin (mkRat 51 255),
           a := JNum.fin 1 } := by decide

example : parseColor "#FF573380" =
    some { r := JNum.fin 1, g := JNum.fin (mkRat 87 255), b := JNum.fin (mkRat 51 255),
           a := JNum.fin (mkRat 128 255) } := by decide

example : parseColor "rgba(255, 87, 51, 0.5)" =
    some { r := JNum.fin 1, g := JNum.fin (mkRat 87 255), b := JNum.fin (mkRat 51 255),
           a := JNum.fin (mkRat 1 2) } := by decide

example : parseColor "invalid" = none := by decide

example : parseColor "#GGG" =
    some { r := JNum.nan, g := JNum.nan, b := JNum.nan, a := JNum.fin 1 } := by decide

/-! ### Dimension parser (`utils/parsers/dimension-parser.ts`) -/

/-- `SpacingValue` (the repo's dimension record). -/
structure SpacingValue where
  value : JNum
  unit : String
deriving DecidableEq, Repr

/-- The optional fractional part `(?:\.\d+)?`: extend the digit group when a
dot with at least one following digit is present. -/
def numTailOf (ds r1 : List Char) : List Char × List Char :=
  if r1.head? = some '.' then
    let r2 := r1.tail
    let fs := r2.takeWhile isDigitCh
    if fs.isEmpty then (ds, r1)
    else (ds ++ '.' :: fs, r2.dropWhile isDigitCh)
  else (ds, r1)

/-- The trailing unit alternation with the end anchor: the remainder must be
exactly one of the four units, case-insensitively; the unit is lowercased. -/
def unitGate (neg : Bool) (m1 u2 : List Char) : Option (List Char × String) :=
  let unitLower := String.mk (u2.map Char.toLower)
  if unitLower = "px" || unitLower = "rem" || unitLower = "em" || unitLower = "pt" then
    some ((if neg then '-' :: m1 else m1), unitLower)
  else none

/-- Anchored match of `^(-?\d+(?:\.\d+)?)(px|rem|em|pt)$` (case-insensitive):
returns the number group (with sign) and the lowercased unit. -/
def dimMatch (cs : List Char) : Option (List Char × String) :=
  let neg : Bool := negSign cs
  let cs1 : List Char := if neg then cs.tail else cs
  let ds := cs1.takeWhile isDigitCh
  let r1 := cs1.dropWhile isDigitCh
  if ds.isEmpty then none
  else unitGate neg (numTailOf ds r1).1 (numTailOf ds r1).2

/-- `parseDimension` from `dimension-parser.ts`.  The input is a JS value:
falsy or non-string input yields null; the regex is anchored on the raw
(untrimmed) string. -/
def parseDimension (dimension : JsVal) : Option SpacingValue :=
  match dimension with
  | JsVal.str s =>
    if s = "" then none
    else
      match dimMatch s.data with
      | none => none
      | some (m1, unit) =>
        let value := jsParseFloat (String.mk m1)
        if value.isNaN then none
        else some { value := value, unit := unit }
  | _ => none

example : parseDimension (JsVal.str "16px") =
    some { value := JNum.fin (mkRat 16 1), unit := "px" } := by decide
example : parseDimension (JsVal.str "16PX") =
    some { value := JNum.fin (mkRat 16 1), unit := "px" } := by decide
example : parseDimension (JsVal.str "-1.5rem") =
    some { value := JNum.fin (mkRat (-3) 2), unit := "rem" } := by decide
example : parseDimension (JsVal.str "16 px") = none := by decide
example : parseDimension (JsVal.str "16vh") = none := by decide
example : parseDimension (JsVal.num (JNum.fin 16)) = none := by decide

/-! ### Normalized token model (`types/token-types.ts`) -/

/-- `ShadowValue`. -/
structure ShadowValue where
  color : ColorValue
  offsetX : JNum
  offsetY : JNum
  blur : JNum
  spread : Option JNum
  inset : Option Bool
deriving DecidableEq, Repr

/-- The payload of a concrete token value (`TokenValue["value"]`).  Raw
objects that the code passes through unparsed (the composed typography
`$value`) are carried as `js`. -/
inductive TokenPayload where
  | num (n : JNum)
  | str (s : String)
  | bool (b : Bool)
  | color (c : ColorValue)
  | dim (d : SpacingValue)
  | shadow (s : ShadowValue)
  | js (v : JsVal)
deriving Repr

/-- `TokenValueOrAlias`. -/
inductive TokenValueOrAlias where
  | value (v : TokenPayload)
  | alias (reference : String)
deriving Repr

/-- `NormalizedToken` (fields relevant to the verified claims; `metadata`
is flattened into `source`/`sourceId`). -/
structure NormalizedToken where
  id : String
  name : String
  type : String
  value : TokenValueOrAlias
  modes : List (String × TokenValueOrAlias)
  description : Option String
  source : String
  sourceId : Option String
deriving Repr

/-- Association-list lookup, the JS `Map.get` / record index. -/
def alookup {α : Type} (l : List (String × α)) (k : String) : Option α :=
  (l.find? fun p => p.1 == k).map Prod.snd

/-- JS record assignment `rec[k] = v`: update in place if the key exists,
else append. -/
def upsert {α : Type} : List (String × α) → String → α → List (String × α)
  | [], k, v => [(k, v)]
  | (k0, v0) :: rest, k, v =>
    if k0 = k then (k, v) :: rest else (k0, v0) :: upsert rest k v

/-! ### Shadow parser (`utils/parsers/shadow-parser.ts`) -/

/-- `parseShadowValue`: strings are unsupported; arrays delegate to their
first element; objects parse `color` (required string parsed by
`parseColor`) with numeric defaults for offsets and blur. -/
def parseShadowValue : JsVal → Option ShadowValue
  | JsVal.str _ => none
  | JsVal.arr es =>
    match es with
    | e :: _ => parseShadowValue e
    | [] => none
  | JsVal.obj fields =>
    match (JsVal.obj fields).getField "color" with
    | some (JsVal.str colorStr) =>
      match parseColor colorStr with
      | none => none
      | some color =>
        let offsetX := match (JsVal.obj fields).getField "offsetX" with
          | some (JsVal.num n) => n
          | _ => JNum.fin 0
        let offsetY := match (JsVal.obj fields).getField "offsetY" with
          | some (JsVal.num n) => n
          | _ => JNum.fin 0
        let blur := match (JsVal.obj fields).getField "blur" with
          | some (JsVal.num n) => n
          | _ => JNum.fin 0
        let spread := match (JsVal.obj fields).getField "spread" with
          | some (JsVal.num n) => some n
          | _ => none
        let inset := match (JsVal.obj fields).getField "inset" with
          | some (JsVal.bool b) => some b
          | _ => none
        some { color := color, offsetX := offsetX, offsetY := offsetY,
               blur := blur, spread := spread, inset := inset }
    | _ => none
  | _ => none

/-! ### DTCG alias syntax (`dtcg-normalizers.ts`) -/

/-- `parseAliasReference`: match `^\x7b([^\x7d]+)\x7d$` and return the inner
name. -/
def parseAliasReference (s : String) : Option String :=
  match s.data with
  | c :: rest =>
    if c.toNat == 123 then
      let inner := rest.takeWhile fun ch => ch.toNat != 125
      let rem := rest.dropWhile fun ch => ch.toNat != 125
      if inner.isEmpty then none
      else
        match rem with
        | [ch] => if ch.toNat == 125 then some (String.mk inner) else none
        | _ => none
    else none
  | [] => none

example : parseAliasReference (String.mk ('\x7b' :: "color.primary".data ++ ['\x7d'])) =
    some "color.primary" := by decide
example : parseAliasReference "color.primary" = none := by decide

/-! ### Figma variables model and normalizer (`utils/figma/figma-normalizers.ts`) -/

/-- The TS type of a mode value's payload:
`value?: string | number | boolean` (plus `null` for robustness). -/
inductive FigmaPrim where
  | str (s : String)
  | num (n : JNum)
  | bool (b : Bool)
  | null
  | undef
deriving DecidableEq, Repr

/-- A mode value: `{ type: "VALUE" | "ALIAS", value }`. -/
structure FigmaVariableValue where
  type : String
  value : FigmaPrim
deriving DecidableEq, Repr

/-- A Figma variable (fields consumed by the normalizer). -/
structure FigmaVariable where
  id : String
  name : String
  variable_collection_id : String
  resolved_type : String
  description : String
  values_by_mode : List (String × FigmaVariableValue)
deriving Repr

/-- A Figma variable collection (fields consumed by the importer). -/
structure FigmaVariableCollection where
  id : String
  modes : List (String × String)
  default_mode_id : String
deriving Repr

/-- `ToNumber` on a string (ECMA `StringToNumber`): trimmed empty string is
0; signed `Infinity`; `0x`/`0X` hex integers; otherwise the whole remaining
string must be a decimal literal (digits, optional fraction, optional
exponent), else NaN. -/
def jsStringToNumber (s : String) : JNum :=
  let cs := (s.data.dropWhile isJsWs).reverse.dropWhile isJsWs |>.reverse
  if cs.isEmpty then JNum.fin 0
  else
    match cs with
    | '0' :: 'x' :: ds =>
      if ds ≠ [] && ds.all (fun c => (hexVal c).isSome) then
        JNum.fin ((hexDigitsVal ds : ℤ) : ℚ)
      else JNum.nan
    | '0' :: 'X' :: ds =>
      if ds ≠ [] && ds.all (fun c => (hexVal c).isSome) then
        JNum.fin ((hexDigitsVal ds : ℤ) : ℚ)
      else JNum.nan
    | _ =>
      let neg : Bool := match cs with
        | '-' :: _ => true
        | _ => false
      let cs1 : List Char := match cs with
        | '-' :: r => r
        | '+' :: r => r
        | _ => cs
      if cs1 = "Infinity".data then (if neg then JNum.ninf else JNum.inf)
      else
        let ds := cs1.takeWhile isDigitCh
        let r1 := cs1.dropWhile isDigitCh
        let mantissa : Option (List Char × List Char × List Char) :=
          match ds, r1 with
          | [], '.' :: r2 =>
            let fs := r2.takeWhile isDigitCh
            if fs.isEmpty then none else some ([], fs, r2.dropWhile isDigitCh)
          | [], _ => none
          | _ :: _, '.' :: r2 =>
            let fs := r2.takeWhile isDigitCh
            some (ds, fs, r2.dropWhile isDigitCh)
          | _ :: _, _ => some (ds, [], r1)
        match mantissa with
        | none => JNum.nan
        | some (ip, fp, rest) =>
          let expPart : Option ℤ :=
            match rest with
            | [] => some 0
            | e :: r3 =>
              if e = 'e' || e = 'E' then
                let eneg : Bool := match r3 with
                  | '-' :: _ => true
                  | _ => false
                let r4 : List Char := match r3 with
                  | '-' :: r => r
                  | '+' :: r => r
                  | _ => r3
                if r4 ≠ [] && r4.all isDigitCh then
                  some (if eneg then -(decDigitsVal r4 : ℤ) else (decDigitsVal r4 : ℤ))
                else none
              else none
          match expPart with
          | none => JNum.nan
          | some e =>
            let q := decLitVal neg ip fp
            if 0 ≤ e then JNum.fin (mkRat (q.num * (10 : ℤ) ^ e.toNat) q.den)
            else JNum.fin (mkRat q.num (q.den * (10 : ℕ) ^ (-e).toNat))

/-- Decimal rendering of the fractional digits of a rational (up to 17
digits, the precision JS ever prints). -/
def fracDigits : ℕ → ℕ → ℕ → List Char
  | 0, _, _ => []
  | _ + 1, 0, _ => []
  | fuel + 1, r, den =>
    let d := 10 * r / den
    Char.ofNat ('0'.toNat + d) :: fracDigits fuel (10 * r % den) den

/-- `String(n)` for a JS number.  Integers render exactly; non-integral
rationals render as a (possibly truncated) decimal expansion — a harmless
approximation of JS shortest-round-trip printing, since every consumer in
the embedded code rejects such strings anyway. -/
def jsNumToString (n : JNum) : String :=
  match n with
  | JNum.nan => "NaN"
  | JNum.inf => "Infinity"
  | JNum.ninf => "-Infinity"
  | JNum.fin q =>
    if q.den = 1 then toString q.num
    else
      (if q.num < 0 then "-" else "") ++ toString (q.num.natAbs / q.den) ++ "." ++
        String.mk (fracDigits 17 (q.num.natAbs % q.den) q.den)

/-- `String(value)` on a mode value payload. -/
def jsToStringPrim : FigmaPrim → String
  | FigmaPrim.str s => s
  | FigmaPrim.num n => jsNumToString n
  | FigmaPrim.bool b => if b then "true" else "false"
  | FigmaPrim.null => "null"
  | FigmaPrim.undef => "undefined"

/-- `Number(value)` on a mode value payload. -/
def jsToNumberPrim : FigmaPrim → JNum
  | FigmaPrim.str s => jsStringToNumber s
  | FigmaPrim.num n => n
  | FigmaPrim.bool b => if b then JNum.fin 1 else JNum.fin 0
  | FigmaPrim.null => JNum.fin 0
  | FigmaPrim.undef => JNum.nan

/-- `Boolean(value)` on a mode value payload. -/
def jsToBoolPrim : FigmaPrim → Bool
  | FigmaPrim.str s => !(s == "")
  | FigmaPrim.num (JNum.fin q) => !(q == 0)
  | FigmaPrim.num JNum.nan => false
  | FigmaPrim.num _ => true
  | FigmaPrim.bool b => b
  | FigmaPrim.null => false
  | FigmaPrim.undef => false

/-- `mapFigmaTypeToTokenType`. -/
def mapFigmaTypeToTokenType (figmaType : String) : Option String :=
  match figmaType with
  | "COLOR" => some "color"
  | "FLOAT" => some "number"
  | "STRING" => some "string"
  | "BOOLEAN" => some "boolean"
  | _ => none

/-- Collapse every whitespace run into a single hyphen; the flag records
whether the previous character was part of a run. -/
def collapseWsAux : Bool → List Char → List Char
  | _, [] => []
  | inRun, c :: cs =>
    if isJsWs c then
      if inRun then collapseWsAux true cs else '-' :: collapseWsAux true cs
    else c :: collapseWsAux false cs

/-- `.replace(/\s+/g, "-")`. -/
def collapseWsToHyphen (cs : List Char) : List Char := collapseWsAux false cs

/-- `normalizeVariableName`: slashes to dots, whitespace runs to hyphens,
lowercased. -/
def normalizeVariableName (name : String) : String :=
  String.mk
    (((collapseWsToHyphen (name.data.map fun c => if c = '/' then '.' else c)).map
      Char.toLower))

example : normalizeVariableName "Color/Primary Dark" = "color.primary-dark" := by decide

/-- `parseValue`: undefined/null is rejected; `BOOLEAN`/`FLOAT`/`STRING`
cast directly (no finiteness check); `COLOR` renders to string and runs the
color parser. -/
def parseValue (value : FigmaPrim) (resolvedType : String) : Option TokenPayload :=
  match value with
  | FigmaPrim.undef => none
  | FigmaPrim.null => none
  | v =>
    match resolvedType with
    | "BOOLEAN" =>
      some (TokenPayload.bool (match v with
        | FigmaPrim.bool b => b
        | _ => jsToBoolPrim v))
    | "FLOAT" =>
      some (TokenPayload.num (match v with
        | FigmaPrim.num n => n
        | _ => jsToNumberPrim v))
    | "STRING" => some (TokenPayload.str (jsToStringPrim v))
    | "COLOR" => (parseColor (jsToStringPrim v)).map TokenPayload.color
    | _ => none

/-- `normalizeVariableValue`: `ALIAS` resolves the variable id through the
id-to-name map (unknown ids yield null); `VALUE` parses the payload. -/
def normalizeVariableValue (value : FigmaVariableValue) (resolvedType : String)
    (variableIdToName : List (String × String)) : Option TokenValueOrAlias :=
  if value.type = "ALIAS" then
    match value.value with
    | FigmaPrim.str vid =>
      match alookup variableIdToName vid with
      | some referencedName =>
        if referencedName = "" then none
        else some (TokenValueOrAlias.alias referencedName)
      | none => none
    | _ => none
  else if value.type ≠ "VALUE" then none
  else
    match parseValue value.value resolvedType with
    | none => none
    | some payload => some (TokenValueOrAlias.value payload)

/-- The mode display name: `modeIdToName.get(modeId) || modeId`. -/
def modeDisplayName (modeIdToName : List (String × String)) (modeId : String) : String :=
  match alookup modeIdToName modeId with
  | some nm => if nm = "" then modeId else nm
  | none => modeId

/-- The default-mode choice of `normalizeVariable`:
`if (defaultModeId && variable.values_by_mode[defaultModeId])` — the id must
be truthy (a missing or empty string falls through) and present; otherwise
the first entry in insertion order is selected. -/
def selectDefaultMode (values : List (String × FigmaVariableValue))
    (first : String × FigmaVariableValue) (defaultModeId : Option String) :
    String × FigmaVariableValue :=
  match defaultModeId with
  | some d =>
    if d ≠ "" then
      match alookup values d with
      | some mv => (d, mv)
      | none => first
    else first
  | none => first

/-- The mode-record loop of `normalizeVariable`: every mode other than the
selected one whose value normalizes is recorded under its display name. -/
def buildModes (values : List (String × FigmaVariableValue)) (selId rt : String)
    (idMap m2 : List (String × String)) : List (String × TokenValueOrAlias) :=
  values.foldl
    (fun acc p =>
      if p.1 = selId then acc
      else
        match normalizeVariableValue p.2 rt idMap with
        | some nv => upsert acc (modeDisplayName m2 p.1) nv
        | none => acc)
    []

/-- `normalizeVariable`.  Returns the token (if any) and the list of
warnings the call pushes. -/
def normalizeVariable (v : FigmaVariable)
    (variableIdToName : List (String × String))
    (modeIdToName : List (String × String))
    (defaultModeId : Option String) :
    Option NormalizedToken × List String :=
  let tokenName := normalizeVariableName v.name
  match mapFigmaTypeToTokenType v.resolved_type with
  | none =>
    (none,
     ["Unsupported variable type \"" ++ v.resolved_type ++ "\" for variable \"" ++
      v.name ++ "\" (" ++ v.id ++ "). Skipping."])
  | some tokenType =>
    match v.values_by_mode with
    | [] => (none, [])
    | first :: _ =>
      let selected := selectDefaultMode v.values_by_mode first defaultModeId
      match normalizeVariableValue selected.2 v.resolved_type variableIdToName with
      | none => (none, [])
      | some defaultValue =>
        (some { id := v.id
                name := tokenName
                type := tokenType
                value := defaultValue
                modes := buildModes v.values_by_mode selected.1 v.resolved_type
                  variableIdToName modeIdToName
                description := if v.description = "" then none
                               else some v.description
                source := "figma"
                sourceId := some v.id }, [])

/-! ### Importer orchestration (`FigmaImporter.ts`) -/

structure TokenSetMetadata where
  source : String
  name : String
deriving Repr

structure NormalizedTokenSet where
  tokens : List (String × NormalizedToken)
  metadata : TokenSetMetadata
deriving Repr

structure ImporterResult where
  tokenSet : NormalizedTokenSet
  warnings : List String
  errors : List String
deriving Repr

/-- One step of the token-accumulation loop of `FigmaImporter.ingest`. -/
def ingestStep (variableIdToName modeIdToName collectionIdToDefaultModeId :
    List (String × String)) (st : List (String × NormalizedToken) × List String)
    (p : String × FigmaVariable) : List (String × NormalizedToken) × List String :=
  let r := normalizeVariable p.2 variableIdToName modeIdToName
    (alookup collectionIdToDefaultModeId p.2.variable_collection_id)
  let warnings := st.2 ++ r.2
  match r.1 with
  | some token =>
    let warnings :=
      if (alookup st.1 token.name).isSome then
        warnings ++
          ["Token name collision: Variable \"" ++ p.2.name ++ "\" (" ++ p.1 ++
           ") normalizes to \"" ++ token.name ++
           "\" which already exists. The later variable will overwrite the earlier one."]
      else warnings
    (upsert st.1 token.name token, warnings)
  | none => (st.1, warnings)

/-- `FigmaImporter.ingest`, as a function of the two (already settled) fetch
outcomes.  `Promise.allSettled` awaits both independently: a variables
failure is fatal (the method throws), a collections failure only adds a
warning and leaves the collections empty. -/
def figmaIngest (fileKey : String)
    (variablesResult : Except String (List (String × FigmaVariable)))
    (collectionsResult : Except String (List (String × FigmaVariableCollection))) :
    Except String ImporterResult :=
  match variablesResult with
  | Except.error msg => Except.error ("Figma import failed: " ++ msg)
  | Except.ok vars =>
    let cw : List (String × FigmaVariableCollection) × List String :=
      match collectionsResult with
      | Except.error msg =>
        ([], ["Failed to fetch variable collections: " ++ msg ++
              ". Continuing with mode IDs instead of names."])
      | Except.ok cols => (cols, [])
    let collections := cw.1
    let variableIdToName :=
      vars.foldl (fun acc p => upsert acc p.1 (normalizeVariableName p.2.name)) []
    let modeIdToName :=
      collections.foldl
        (fun acc p => p.2.modes.foldl (fun acc2 m => upsert acc2 m.1 m.2) acc) []
    let collectionIdToDefaultModeId :=
      collections.foldl (fun acc p => upsert acc p.2.id p.2.default_mode_id) []
    let tw := vars.foldl
      (ingestStep variableIdToName modeIdToName collectionIdToDefaultModeId) ([], cw.2)
    Except.ok
      { tokenSet :=
          { tokens := tw.1
            metadata := { source := "figma", name := "Figma Variables - " ++ fileKey } }
        warnings := tw.2
        errors := [] }

/-! ### Cross-token validation (`token-validators`): cycle detection -/

/-- The mutable state of `detectCircularReferences`. -/
structure DetectState where
  cycles : List (List String)
  visited : List String
  visiting : List String
deriving Repr

/-- The number of token names not currently gray; the termination measure of
the depth-first traversal. -/
def unvisCount (tokens : List (String × NormalizedToken)) (visiting : List String) : ℕ :=
  ((tokens.map Prod.fst).filter fun k => !(visiting.contains k)).length

lemma filter_length_mono {α : Type} (L : List α) (p q : α → Bool)
    (himp : ∀ x, q x = true → p x = true) :
    (L.filter q).length ≤ (L.filter p).length := by
  induction L with
  | nil => simp
  | cons b L ih =>
    cases hqb : q b with
    | true =>
      have hpb := himp b hqb
      simp only [List.filter_cons, hqb, hpb, if_true, List.length_cons]
      omega
    | false =>
      cases hpb : p b with
      | true =>
        simp only [List.filter_cons, hqb, hpb]
        simp only [Bool.false_eq_true, if_false, if_true, List.length_cons]
        omega
      | false =>
        simp only [List.filter_cons, hqb, hpb, Bool.false_eq_true, if_false]
        exact ih

lemma filter_length_lt {α : Type} (L : List α) (p q : α → Bool)
    (himp : ∀ x, q x = true → p x = true) (a : α) (ha : a ∈ L)
    (hpa : p a = true) (hqa : q a = false) :
    (L.filter q).length < (L.filter p).length := by
  induction L with
  | nil => cases ha
  | cons b L ih =>
    rcases List.mem_cons.mp ha with rfl | hmem
    · simp only [List.filter_cons, hpa, hqa, Bool.false_eq_true, if_true, if_false,
        List.length_cons]
      exact Nat.lt_succ_of_le (filter_length_mono L p q himp)
    · cases hqb : q b with
      | true =>
        have hpb := himp b hqb
        simp only [List.filter_cons, hqb, hpb, if_true, List.length_cons]
        exact Nat.succ_lt_succ (ih hmem)
      | false =>
        cases hpb : p b with
        | true =>
          simp only [List.filter_cons, hqb, hpb, Bool.false_eq_true, if_false, if_true,
            List.length_cons]
          exact Nat.lt_succ_of_lt (ih hmem)
        | false =>
          simp only [List.filter_cons, hqb, hpb, Bool.false_eq_true, if_false]
          exact ih hmem

lemma alookup_mem_keys {α : Type} {l : List (String × α)} {k : String} {v : α}
    (h : alookup l k = some v) : k ∈ l.map Prod.fst := by
  unfold alookup at h
  cases hf : l.find? fun p => p.1 == k with
  | none => rw [hf] at h; cases h
  | some x =>
    have hx := List.find?_some hf
    have hmem := List.mem_of_find?_eq_some hf
    have : x.1 = k := by simpa using hx
    subst this
    exact List.mem_map_of_mem Prod.fst hmem

/-- `resolveReference` from `detectCircularReferences`: the depth-first walk
of the alias chain.  `path` is the JS recursion-stack array, `visiting` the
gray set, `visited` the black set; the second component is the function's
return value. -/
def resolveRef (tokens : List (String × NormalizedToken)) (name : String)
    (path : List String) (st : DetectState) :
    DetectState × Option TokenValueOrAlias :=
  match htok : alookup tokens name with
  | none => (st, none)
  | some token =>
    if h1 : st.visiting.contains name = true then
      match path.findIdx? fun x => x == name with
      | some i =>
        ({ st with cycles := st.cycles ++ [path.drop i ++ [name]] }, none)
      | none => (st, none)
    else if h2 : st.visited.contains name = true then
      (st, some token.value)
    else
      match token.value with
      | TokenValueOrAlias.alias r =>
        let inner := resolveRef tokens r (path ++ [name])
          { cycles := st.cycles, visited := st.visited, visiting := name :: st.visiting }
        let value := match inner.2 with
          | some v => v
          | none => token.value
        ({ cycles := inner.1.cycles, visited := name :: inner.1.visited,
           visiting := inner.1.visiting.erase name }, some value)
      | v =>
        ({ cycles := st.cycles, visited := name :: st.visited,
           visiting := (name :: st.visiting).erase name }, some v)
termination_by unvisCount tokens st.visiting
decreasing_by
  simp only [unvisCount]
  apply filter_length_lt (tokens.map Prod.fst)
    (fun k => !(st.visiting.contains k))
    (fun k => !((name :: st.visiting).contains k))
    ?_ name (alookup_mem_keys htok) ?_ ?_
  · intro x hx
    simp only [List.contains_cons, Bool.not_eq_true', Bool.or_eq_false_iff] at hx
    simpa using hx.2
  · simp only [Bool.not_eq_true']
    exact Bool.eq_false_iff.mpr h1
  · simp [List.contains_cons]

/-- The result record of `detectCircularReferences`. -/
structure DetectResult where
  hasCircular : Bool
  cycles : List (List String)
deriving Repr

/-- `detectCircularReferences`: run the walk from every not-yet-black token
name, in insertion order. -/
def detectCircularReferences (tokens : List (String × NormalizedToken)) :
    DetectResult :=
  let final := tokens.foldl
    (fun st p => if st.visited.contains p.1 then st else (resolveRef tokens p.1 [] st).1)
    { cycles := [], visited := [], visiting := [] }
  { hasCircular := decide (0 < final.cycles.length), cycles := final.cycles }

/-! ### DTCG validator (`dtcg-validators.ts`) -/

lemma sizeOf_snd_lt_of_mem_entriesOf {t : JsVal} {p : String × JsVal}
    (h : p ∈ t.entriesOf) : sizeOf p.2 < sizeOf t := by
  cases t with
  | obj fs =>
    simp only [JsVal.entriesOf] at h
    have h1 := List.sizeOf_lt_of_mem h
    have h2 : sizeOf p.2 < sizeOf p := by
      cases p with
      | mk a b => simp only [Prod.mk.sizeOf_spec]; omega
    simp only [JsVal.obj.sizeOf_spec]
    omega
  | arr es =>
    simp only [JsVal.entriesOf] at h
    obtain ⟨q, hq, hpq⟩ := List.mem_map.mp h
    have hsnd : q.2 ∈ es := by
      have he : es.enum.map Prod.snd = es := List.enum_map_snd es
      rw [← he]
      exact List.mem_map_of_mem _ hq
    have h1 := List.sizeOf_lt_of_mem hsnd
    have h2 : p.2 = q.2 := by rw [← hpq]
    rw [h2]
    simp only [JsVal.arr.sizeOf_spec]
    omega
  | str s => simp [JsVal.entriesOf] at h
  | num n => simp [JsVal.entriesOf] at h
  | bool b => simp [JsVal.entriesOf] at h
  | null => simp [JsVal.entriesOf] at h
  | undef => simp [JsVal.entriesOf] at h

/-- `key.startsWith("$")`. -/
def startsWithDollar (k : String) : Bool :=
  match k.data with
  | c :: _ => c == '$'
  | [] => false

/-- Dot-joined child path: `path ? path + "." + key : key`. -/
def childPath (path k : String) : String :=
  if path = "" then k else path ++ "." ++ k

def VALID_DTCG_TYPES : List String :=
  ["color", "dimension", "fontFamily", "fontSize", "fontWeight", "lineHeight",
   "letterSpacing", "borderRadius", "shadow"]

/-- `VALID_DTCG_TYPES.join(", ")`. -/
def validTypesJoined : String :=
  String.intercalate ", " VALID_DTCG_TYPES

/-- `validateTokenValue`: in the source every branch merely `return`s — the
function emits no diagnostic whatsoever, so its error contribution is the
constant empty list. -/
def validateTokenValue (_value : JsVal) (_ty : String) : List String := []

/-- Is a child key one the validator/flattener recurses through (not one of
the four metadata keys)? -/
def isChildKey (k : String) : Bool :=
  k != "$type" && k != "$value" && k != "$description" && k != "$extensions"

/-- The `$type`-inspection step shared by the token checks of
`validateToken`: the errors contributed by the node itself, and whether the
walk continues into the children. -/
def tokenOwnErrs (token : JsVal) (path : String) : List String × Bool :=
  match token.getField "$type" with
  | some (JsVal.str ty) =>
    ((if VALID_DTCG_TYPES.contains ty then [] else
        ["Token at path \"" ++ path ++ "\" has invalid $type: \"" ++ ty ++
         "\". Valid types: " ++ validTypesJoined]) ++
     (match token.getField "$value" with
      | none => ["Token at path \"" ++ path ++ "\" must have $value"]
      | some v => validateTokenValue v ty), true)
  | some _ =>
    (["Token at path \"" ++ path ++ "\" must have $type as a string"], false)
  | none => ([], true)

mutual

/-- The recursive `validateToken` worker of `validateDTCGFile`.  A token
(`$type` present) is checked and, unless its `$type` was non-string, the
walk continues into object-valued children not named by a metadata key. -/
def validateTokenV (token : JsVal) (path : String) : List String :=
  if token.isObjTruthy = true then
    let own := tokenOwnErrs token path
    own.1 ++
      (if own.2 then
        match token with
        | JsVal.obj fs => validateKidsF fs path
        | JsVal.arr es => validateKidsE es 0 path
        | _ => []
      else [])
  else ["Token at path \"" ++ path ++ "\" must be an object"]

/-- Child loop of `validateToken` over object fields. -/
def validateKidsF : List (String × JsVal) → String → List String
  | [], _ => []
  | (k, v) :: rest, path =>
    (if isChildKey k && v.isObjTruthy then validateTokenV v (childPath path k)
     else []) ++ validateKidsF rest path

/-- Child loop of `validateToken` over array elements (index keys). -/
def validateKidsE : List JsVal → ℕ → String → List String
  | [], _, _ => []
  | v :: rest, i, path =>
    (if isChildKey (toString i) && v.isObjTruthy then
       validateTokenV v (childPath path (toString i))
     else []) ++ validateKidsE rest (i + 1) path

end

mutual

/-- The same walk with the (claimed unreachable) non-object diagnostic
replaced by silence; `validateTokenV_eq_pruned` below shows the two agree on
every actual call. -/
def validateTokenPruned (token : JsVal) (path : String) : List String :=
  if token.isObjTruthy = true then
    let own := tokenOwnErrs token path
    own.1 ++
      (if own.2 then
        match token with
        | JsVal.obj fs => validatePrunedKidsF fs path
        | JsVal.arr es => validatePrunedKidsE es 0 path
        | _ => []
      else [])
  else []

def validatePrunedKidsF : List (String × JsVal) → String → List String
  | [], _ => []
  | (k, v) :: rest, path =>
    (if isChildKey k && v.isObjTruthy then validateTokenPruned v (childPath path k)
     else []) ++ validatePrunedKidsF rest path

def validatePrunedKidsE : List JsVal → ℕ → String → List String
  | [], _, _ => []
  | v :: rest, i, path =>
    (if isChildKey (toString i) && v.isObjTruthy then
       validateTokenPruned v (childPath path (toString i))
     else []) ++ validatePrunedKidsE rest (i + 1) path

end

structure ValidationResult where
  valid : Bool
  errors : List String
deriving DecidableEq, Repr

/-- `validateDTCGFile`. -/
def validateDTCGFile (file : JsVal) : ValidationResult :=
  if file.isObjTruthy = true then
    let schemaErrs : List String :=
      match file.getField "$schema" with
      | some sv => if sv.jsTypeof == "string" then [] else
          ["$schema must be a string if present"]
      | none => []
    let errs := schemaErrs ++
      (file.entriesOf.map fun p =>
        if p.1 != "$schema" && p.2.isObjTruthy then validateTokenV p.2 p.1
        else []).join
    { valid := errs.isEmpty, errors := errs }
  else { valid := false, errors := ["DTCG file must be an object"] }

/-- `validateDTCGFile` with the pruned walker. -/
def validateDTCGFilePruned (file : JsVal) : ValidationResult :=
  if file.isObjTruthy = true then
    let schemaErrs : List String :=
      match file.getField "$schema" with
      | some sv => if sv.jsTypeof == "string" then [] else
          ["$schema must be a string if present"]
      | none => []
    let errs := schemaErrs ++
      (file.entriesOf.map fun p =>
        if p.1 != "$schema" && p.2.isObjTruthy then validateTokenPruned p.2 p.1
        else []).join
    { valid := errs.isEmpty, errors := errs }
  else { valid := false, errors := ["DTCG file must be an object"] }

/-! ### DTCG normalizer helpers (`dtcg-normalizers.ts`) -/

/-- Case-insensitive substring test (`/needle/i.test(hay)` for a literal
needle); both sides are compared lowercased. -/
def containsSub (needle : List Char) : List Char → Bool
  | [] => listStartsWith needle []
  | c :: cs => listStartsWith needle (c :: cs) || containsSub needle cs

/-- `mapDTCGTypeToTokenType`: `dimension` becomes `spacing` when the token
path (truthy) contains the word `spacing` case-insensitively; the five
typography property types map to nothing (they are only composed). -/
def mapDTCGTypeToTokenType (dtcgType : String) (tokenPath : Option String) :
    Option String :=
  match dtcgType with
  | "color" => some "color"
  | "dimension" =>
    match tokenPath with
    | some p =>
      if p ≠ "" && containsSub "spacing".data (p.data.map Char.toLower) then
        some "spacing"
      else some "dimension"
    | none => some "dimension"
  | "fontFamily" => none
  | "fontSize" => none
  | "fontWeight" => none
  | "lineHeight" => none
  | "letterSpacing" => none
  | "borderRadius" => some "borderRadius"
  | "shadow" => some "shadow"
  | _ => none

/-- `parseDTCGValue`: dispatch on the declared `$type`. -/
def parseDTCGValue (value : JsVal) (ty : String) : Option TokenPayload :=
  match value with
  | JsVal.null => none
  | JsVal.undef => none
  | v =>
    match ty with
    | "color" =>
      match v with
      | JsVal.str s => (parseColor s).map TokenPayload.color
      | _ => none
    | "dimension" =>
      match v with
      | JsVal.str s => (parseDimension (JsVal.str s)).map TokenPayload.dim
      | _ => none
    | "fontSize" =>
      match v with
      | JsVal.str s => (parseDimension (JsVal.str s)).map TokenPayload.dim
      | _ => none
    | "letterSpacing" =>
      match v with
      | JsVal.str s => (parseDimension (JsVal.str s)).map TokenPayload.dim
      | _ => none
    | "borderRadius" =>
      match v with
      | JsVal.str s => (parseDimension (JsVal.str s)).map TokenPayload.dim
      | _ => none
    | "lineHeight" =>
      match v with
      | JsVal.num n => some (TokenPayload.num n)
      | JsVal.str s => (parseDimension (JsVal.str s)).map TokenPayload.dim
      | _ => none
    | "fontWeight" =>
      match v with
      | JsVal.num n => some (TokenPayload.num n)
      | JsVal.str s =>
        let n := jsParseFloat s
        if n.isNaN then some (TokenPayload.str s) else some (TokenPayload.num n)
      | _ => none
    | "fontFamily" =>
      match v with
      | JsVal.str s => some (TokenPayload.str s)
      | _ => none
    | "shadow" =>
      match v with
      | JsVal.str _ => none
      | _ => (parseShadowValue v).map TokenPayload.shadow
    | _ => none

/-- `normalizeDTCGTokenValue`: a string in alias syntax resolves against the
flattened token map (unknown targets yield null); anything else goes through
`parseDTCGValue`. -/
def normalizeDTCGTokenValue (value : JsVal) (ty : String) (_tokenPath : String)
    (allTokens : List (String × JsVal)) : Option TokenValueOrAlias :=
  let concrete : Option TokenValueOrAlias :=
    match parseDTCGValue value ty with
    | none => none
    | some p => some (TokenValueOrAlias.value p)
  match value with
  | JsVal.str s =>
    match parseAliasReference s with
    | some ref =>
      if ref ≠ "" then
        if (alookup allTokens ref).isSome then some (TokenValueOrAlias.alias ref)
        else none
      else concrete
    | none => concrete
  | _ => concrete

/-! ### DTCG flattener (`flattenDTCGTokens` and typography composition) -/

def typographyPropertyNames : List String :=
  ["fontFamily", "fontSize", "fontWeight", "lineHeight", "letterSpacing"]

def typographyPropertyTypes : List String :=
  ["fontFamily", "fontSize", "fontWeight", "lineHeight", "letterSpacing", "dimension"]

/-- The entry loop of `isTypographyGroup`, threading the three flags. -/
def isTypographyGroupAux : List (String × JsVal) → Bool → Bool → Bool → Bool
  | [], hasFam, hasSize, hasAny => hasAny && hasFam && hasSize
  | (k, v) :: rest, hasFam, hasSize, hasAny =>
    if startsWithDollar k then isTypographyGroupAux rest hasFam hasSize hasAny
    else if !v.isObjTruthy then false
    else if !(typographyPropertyNames.contains k) then false
    else
      let hasFam1 := hasFam || k == "fontFamily"
      let hasSize1 := hasSize || k == "fontSize"
      match v.getField "$type" with
      | some (JsVal.str t) =>
        if t ≠ "" then
          if typographyPropertyTypes.contains t then
            isTypographyGroupAux rest hasFam1 hasSize1 true
          else false
        else false
      | _ => false

/-- `isTypographyGroup`: every non-`$` child is a typography-property token
of an allowed type, and both `fontFamily` and `fontSize` are present. -/
def isTypographyGroup (group : JsVal) : Bool :=
  isTypographyGroupAux group.entriesOf false false false

/-- Encoding of a `SpacingValue` record as a JS object. -/
def spacingToJs (d : SpacingValue) : JsVal :=
  JsVal.obj [("value", JsVal.num d.value), ("unit", JsVal.str d.unit)]

/-- Encoding of a `ColorValue` record as a JS object. -/
def colorToJs (c : ColorValue) : JsVal :=
  JsVal.obj [("r", JsVal.num c.r), ("g", JsVal.num c.g), ("b", JsVal.num c.b),
             ("a", JsVal.num c.a)]

/-- Encoding of a `ShadowValue` record as a JS object (absent optionals are
present with value `undefined`, as in the object literal of the source). -/
def shadowToJs (s : ShadowValue) : JsVal :=
  JsVal.obj [("color", colorToJs s.color), ("offsetX", JsVal.num s.offsetX),
             ("offsetY", JsVal.num s.offsetY), ("blur", JsVal.num s.blur),
             ("spread", match s.spread with
                        | some n => JsVal.num n
                        | none => JsVal.undef),
             ("inset", match s.inset with
                       | some b => JsVal.bool b
                       | none => JsVal.undef)]

/-- A token payload as the JS runtime value it denotes. -/
def payloadToJs : TokenPayload → JsVal
  | TokenPayload.num n => JsVal.num n
  | TokenPayload.str s => JsVal.str s
  | TokenPayload.bool b => JsVal.bool b
  | TokenPayload.color c => colorToJs c
  | TokenPayload.dim d => spacingToJs d
  | TokenPayload.shadow s => shadowToJs s
  | TokenPayload.js v => v

/-- The `typeof x === "object" && "value" in x && "unit" in x` test applied
to a payload. -/
def payloadIsValueUnitObj : TokenPayload → Bool
  | TokenPayload.dim _ => true
  | TokenPayload.js v =>
    v.isObjTruthy && (v.getField "value").isSome && (v.getField "unit").isSome
  | _ => false

/-- One `switch (key)` step of `composeTypographyGroup`: maybe assign the
typography field for `key` from the normalized payload. -/
def composeAssign (typ : List (String × JsVal)) (k ty : String)
    (payload : TokenPayload) : List (String × JsVal) :=
  if k = "fontFamily" then
    if ty = "fontFamily" &&
        (match payload with
         | TokenPayload.str _ => true
         | _ => false) then
      upsert typ "fontFamily" (payloadToJs payload)
    else typ
  else if k = "fontSize" then
    if (ty = "fontSize" || ty = "dimension") && payloadIsValueUnitObj payload then
      upsert typ "fontSize" (payloadToJs payload)
    else typ
  else if k = "fontWeight" then
    if ty = "fontWeight" then upsert typ "fontWeight" (payloadToJs payload) else typ
  else if k = "lineHeight" then
    if ty = "lineHeight" || ty = "dimension" then
      if payloadIsValueUnitObj payload then
        upsert typ "lineHeight" (payloadToJs payload)
      else
        match payload with
        | TokenPayload.num _ => upsert typ "lineHeight" (payloadToJs payload)
        | _ => typ
    else typ
  else if k = "letterSpacing" then
    if (ty = "letterSpacing" || ty = "dimension") && payloadIsValueUnitObj payload then
      upsert typ "letterSpacing" (payloadToJs payload)
    else typ
  else typ

/-- One entry step of the field loop of `composeTypographyGroup`. -/
def composeStep (allTokens : List (String × JsVal)) (path : String)
    (typ : List (String × JsVal)) (x : String × JsVal) : List (String × JsVal) :=
  let k := x.1
  let v := x.2
  if startsWithDollar k then typ
  else if !v.isObjTruthy then typ
  else
    match v.getField "$type" with
    | some (JsVal.str t) =>
      if t ≠ "" then
        match normalizeDTCGTokenValue ((v.getField "$value").getD JsVal.undef) t
            (childPath path k) allTokens with
        | some (TokenValueOrAlias.value payload) => composeAssign typ k t payload
        | _ => typ
      else typ
    | _ => typ

/-- `composeTypographyGroup`: build the partial typography record from the
group's property tokens, and require truthy `fontFamily` and `fontSize`. -/
def composeTypographyGroup (group : JsVal) (allTokens : List (String × JsVal))
    (path : String) : Option JsVal :=
  let fields := group.entriesOf.foldl (composeStep allTokens path) []
  let famOk := match alookup fields "fontFamily" with
    | some fv => fv.truthy
    | none => false
  let sizeOk := match alookup fields "fontSize" with
    | some fv => fv.truthy
    | none => false
  if famOk && sizeOk then some (JsVal.obj fields) else none

/-- JS `"a.b.c".split(".")`. -/
def splitDotAux : List Char → List Char → List String
  | [], acc => [String.mk acc.reverse]
  | c :: cs, acc =>
    if c = '.' then String.mk acc.reverse :: splitDotAux cs []
    else splitDotAux cs (c :: acc)

def splitDot (s : String) : List String := splitDotAux s.data []

/-- JS `segments.join(".")`. -/
def joinDot (l : List String) : String := String.intercalate "." l

/-- The two accumulators of `flattenDTCGTokens` (both insertion-ordered
maps). -/
structure FlatState where
  tokens : List (String × JsVal)
  typographyGroups : List (String × JsVal)
deriving Repr

mutual

/-- `processNode`: a `$type`-bearing node is a token (suppressed when it is
a typography property inside an already-registered typography group); a
typography group is registered and recursed; any other node just recurses
through its object children. -/
def processNode (node : JsVal) (currentPath : String) (st : FlatState) : FlatState :=
  if (match node.getField "$type" with
      | some (JsVal.str _) => true
      | _ => false) then
    let segs := splitDot currentPath
    let lastSegment := segs.getLast?.getD ""
    let parentP : Option String :=
      if segs.length > 1 then some (joinDot segs.dropLast) else none
    let shouldSkip := typographyPropertyNames.contains lastSegment &&
      (match parentP with
       | some pp => (alookup st.typographyGroups pp).isSome
       | none => false)
    if shouldSkip then st
    else { st with tokens := upsert st.tokens currentPath node }
  else if isTypographyGroup node then
    let st1 : FlatState :=
      { st with typographyGroups := upsert st.typographyGroups currentPath node }
    match node with
    | JsVal.obj fs => processFields fs currentPath st1
    | JsVal.arr es => processElems es 0 currentPath st1
    | _ => st1
  else
    match node with
    | JsVal.obj fs => processFields fs currentPath st
    | JsVal.arr es => processElems es 0 currentPath st
    | _ => st

/-- Child loop of `processNode` over object fields. -/
def processFields : List (String × JsVal) → String → FlatState → FlatState
  | [], _, st => st
  | (k, v) :: rest, p, st =>
    processFields rest p
      (if isChildKey k && v.isObjTruthy then processNode v (childPath p k) st else st)

/-- Child loop of `processNode` over array elements (index keys). -/
def processElems : List JsVal → ℕ → String → FlatState → FlatState
  | [], _, _, st => st
  | v :: rest, i, p, st =>
    processElems rest (i + 1) p
      (if isChildKey (toString i) && v.isObjTruthy then
         processNode v (childPath p (toString i)) st
       else st)

end

/-- One step of the typography-composition loop of `flattenDTCGTokens`: build
the temporary alias-resolution map (all tokens plus the group's own property
tokens) and, when the group composes, record the synthetic token at the
group's path. -/
def composeGroupStep (toks : List (String × JsVal)) (gp : String × JsVal) :
    List (String × JsVal) :=
  let tempTokens := gp.2.entriesOf.foldl
    (fun tmp x =>
      if !(startsWithDollar x.1) && x.2.isObjTruthy &&
          (x.2.getField "$type").isSome then
        upsert tmp (childPath gp.1 x.1) x.2
      else tmp)
    toks
  match composeTypographyGroup gp.2 tempTokens gp.1 with
  | some composed =>
    upsert toks gp.1
      (JsVal.obj [("$type", JsVal.str "typography"), ("$value", composed)])
  | none => toks

/-- `flattenDTCGTokens`: walk the document, then compose each registered
typography group (against a temporary map extended with the group's own
property tokens) into a synthetic `typography` token at the group path. -/
def flattenDTCGTokens (file : JsVal) (pfx : String := "") : List (String × JsVal) :=
  let st := file.entriesOf.foldl
    (fun acc p =>
      if p.1 != "$schema" && p.2.isObjTruthy then
        processNode p.2 (childPath pfx p.1) acc
      else acc)
    { tokens := [], typographyGroups := [] }
  st.typographyGroups.foldl composeGroupStep st.tokens

/-- `path.replace(/\./g, "-").toLowerCase()`. -/
def lowerHyphenId (path : String) : String :=
  String.mk ((path.data.map fun c => if c = '.' then '-' else c).map Char.toLower)

/-- `token.$description`, kept when it is a string. -/
def descOf (token : JsVal) : Option String :=
  match token.getField "$description" with
  | some (JsVal.str d) => some d
  | _ => none

/-- Should a sibling object be treated as a mode entry?  It must carry a
`$value` and not be a typography-property token. -/
def modeEligible (v : JsVal) : Bool :=
  (v.getField "$value").isSome &&
    (match v.getField "$type" with
     | some (JsVal.str t) => t == "" || !(typographyPropertyNames.contains t)
     | _ => true)

/-- `normalizeDTCGToken`. -/
def normalizeDTCGToken (path : String) (token : JsVal)
    (allTokens : List (String × JsVal)) : Option NormalizedToken × List String :=
  match token.getField "$type" with
  | some (JsVal.str ty) =>
    if ty = "" then (none, ["Token at path \"" ++ path ++ "\" missing $type"])
    else if ty = "typography" then
      let tv := (token.getField "$value").getD JsVal.undef
      if tv.truthy && tv.jsTypeof == "object" && (tv.getField "fontFamily").isSome &&
          (tv.getField "fontSize").isSome then
        (some { id := lowerHyphenId path
                name := path
                type := "typography"
                value := TokenValueOrAlias.value (TokenPayload.js tv)
                modes := []
                description := descOf token
                source := "dtcg"
                sourceId := none }, [])
      else
        (none, ["Token at path \"" ++ path ++ "\" has invalid typography composition"])
    else
      match mapDTCGTypeToTokenType ty (some path) with
      | none =>
        (none, ["Token at path \"" ++ path ++ "\" has unsupported type \"" ++ ty ++ "\""])
      | some nty =>
        match normalizeDTCGTokenValue ((token.getField "$value").getD JsVal.undef) ty
            path allTokens with
        | none =>
          (none, ["Token at path \"" ++ path ++ "\" has invalid or missing $value"])
        | some dv =>
          let modes := token.entriesOf.foldl
            (fun m x =>
              if isChildKey x.1 && x.2.isObjTruthy && modeEligible x.2 then
                match normalizeDTCGTokenValue ((x.2.getField "$value").getD JsVal.undef)
                    ty path allTokens with
                | some mv => upsert m x.1 mv
                | none => m
              else m)
            []
          (some { id := lowerHyphenId path
                  name := path
                  type := nty
                  value := dv
                  modes := modes
                  description := descOf token
                  source := "dtcg"
                  sourceId := none }, [])
  | _ => (none, ["Token at path \"" ++ path ++ "\" missing $type"])

/-! ## Claims -/

/-- C1: the claim states that every `ColorValue` any of the color-parsing
functions returns has all channels finite, non-NaN and inside `[0,1]`, and
that a parse step producing a non-finite number yields no-value.  The code
violates this (contradicting its own test suite, which demands
`parseHexColor("#GGG")` be null): `parseColor "#GGG"` returns a `ColorValue`
whose r, g and b channels are NaN, and `parseRgbColor "rgb(999, 87, 51)"`
returns a red channel of `999/255 > 1`. -/
theorem parseColor_nan_escape_codebug :
    parseColor "#GGG" =
      some { r := JNum.nan, g := JNum.nan, b := JNum.nan, a := JNum.fin 1 } ∧
    parseRgbColor "rgb(999, 87, 51)" =
      some { r := JNum.fin (mkRat 999 255), g := JNum.fin (mkRat 87 255),
             b := JNum.fin (mkRat 51 255), a := JNum.fin 1 } ∧
    ¬ JNum.inUnit (JNum.fin (mkRat 999 255)) := by
  refine ⟨by decide, by decide, ?_⟩
  rintro ⟨q, hq, -, h1⟩
  have hq2 : q = mkRat 999 255 := by
    cases hq
    rfl
  rw [hq2] at h1
  revert h1
  decide

/-- C10: the shadow parser returns no-value on the empty array; the
documented take-first-element behavior applies exactly to non-empty
arrays. -/
theorem parseShadowValue_empty_array :
    parseShadowValue (JsVal.arr []) = none ∧
    ∀ (e : JsVal) (es : List JsVal),
      parseShadowValue (JsVal.arr (e :: es)) = parseShadowValue e := by
  exact ⟨rfl, fun e es => rfl⟩

/-! ### Decimal-rendering lemmas (for the dimension round-trip of C7) -/

lemma decDigitsVal_go (l : List Char) :
    ∀ x : ℕ, l.foldl (fun a c => 10 * a + (c.toNat - '0'.toNat)) x =
      x * 10 ^ l.length + l.foldl (fun a c => 10 * a + (c.toNat - '0'.toNat)) 0 := by
  induction l with
  | nil => intro x; simp
  | cons c l ih =>
    intro x
    simp only [List.foldl_cons, List.length_cons]
    rw [ih (10 * x + (c.toNat - '0'.toNat)), ih (10 * 0 + (c.toNat - '0'.toNat))]
    ring

lemma decDigitsVal_append (a b : List Char) :
    decDigitsVal (a ++ b) = decDigitsVal a * 10 ^ b.length + decDigitsVal b := by
  unfold decDigitsVal
  rw [List.foldl_append, decDigitsVal_go b]

lemma digitChar_spec {m : ℕ} (h : m < 10) :
    isDigitCh (Nat.digitChar m) = true ∧ (Nat.digitChar m).toNat - '0'.toNat = m := by
  interval_cases m <;> exact ⟨by decide, by decide⟩

lemma decDigitsVal_single (c : Char) : decDigitsVal [c] = c.toNat - '0'.toNat := by
  simp [decDigitsVal]

lemma toDigitsCore10_spec :
    ∀ (fuel n : ℕ), n < fuel → ∀ ds : List Char,
      ∃ out, Nat.toDigitsCore 10 fuel n ds = out ++ ds ∧ out ≠ [] ∧
        (∀ c ∈ out, isDigitCh c = true) ∧ decDigitsVal out = n := by
  intro fuel
  induction fuel with
  | zero => intro n hn; omega
  | succ fuel ih =>
    intro n hn ds
    have hmod : n % 10 < 10 := Nat.mod_lt _ (by norm_num)
    obtain ⟨hdig, hval⟩ := digitChar_spec hmod
    by_cases hzero : n / 10 = 0
    · refine ⟨[Nat.digitChar (n % 10)], ?_, by simp, ?_, ?_⟩
      · simp [Nat.toDigitsCore, hzero]
      · intro c hc
        simp only [List.mem_singleton] at hc
        rw [hc]
        exact hdig
      · rw [decDigitsVal_single, hval]
        omega
    · have hlt : n / 10 < fuel := by omega
      obtain ⟨out, hout, hne, hdigs, hv⟩ := ih (n / 10) hlt (Nat.digitChar (n % 10) :: ds)
      refine ⟨out ++ [Nat.digitChar (n % 10)], ?_, by simp, ?_, ?_⟩
      · rw [List.append_assoc]
        simpa [Nat.toDigitsCore, hzero] using hout
      · intro c hc
        rcases List.mem_append.mp hc with h | h
        · exact hdigs c h
        · simp only [List.mem_singleton] at h
          rw [h]
          exact hdig
      · rw [decDigitsVal_append, decDigitsVal_single, hv, hval]
        simp
        omega

lemma natRepr_spec (n : ℕ) :
    ∃ out, (Nat.repr n).data = out ∧ out ≠ [] ∧
      (∀ c ∈ out, isDigitCh c = true) ∧ decDigitsVal out = n := by
  obtain ⟨out, hout, hne, hdigs, hv⟩ :=
    toDigitsCore10_spec (n + 1) n (Nat.lt_succ_self n) []
  refine ⟨out, ?_, hne, hdigs, hv⟩
  simp only [Nat.repr, Nat.toDigits, List.asString]
  rw [hout]
  simp

lemma isDigitCh_not_ws {c : Char} (h : isDigitCh c = true) : isJsWs c = false := by
  rw [Bool.eq_false_iff]
  intro hw
  simp only [isJsWs, Bool.or_eq_true, beq_iff_eq] at hw
  rcases hw with ((((rfl | rfl) | rfl) | rfl) | rfl) | rfl <;> exact absurd h (by decide)

lemma isDigitCh_ne_minus {c : Char} (h : isDigitCh c = true) : c ≠ '-' := by
  rintro rfl; exact absurd h (by decide)

lemma isDigitCh_ne_plus {c : Char} (h : isDigitCh c = true) : c ≠ '+' := by
  rintro rfl; exact absurd h (by decide)

lemma isDigitCh_ne_dot {c : Char} (h : isDigitCh c = true) : c ≠ '.' := by
  rintro rfl; exact absurd h (by decide)

lemma isDigitCh_ne_upperI {c : Char} (h : isDigitCh c = true) : c ≠ 'I' := by
  rintro rfl; exact absurd h (by decide)

lemma takeWhile_append_all {p : Char → Bool} :
    ∀ (a b : List Char), (∀ c ∈ a, p c = true) →
      (b = [] ∨ ∃ ch t, b = ch :: t ∧ p ch = false) →
      (a ++ b).takeWhile p = a ∧ (a ++ b).dropWhile p = b := by
  intro a
  induction a with
  | nil =>
    intro b _ hb
    rcases hb with rfl | ⟨ch, t, rfl, hch⟩
    · simp
    · simp [List.takeWhile_cons, List.dropWhile_cons, hch]
  | cons c cs ih =>
    intro b ha hb
    have hc : p c = true := ha c (by simp)
    have := ih b (fun x hx => ha x (by simp [hx])) hb
    simp only [List.cons_append, List.takeWhile_cons, List.dropWhile_cons, hc,
      if_true]
    exact ⟨by rw [this.1], by rw [this.2]⟩

/-- Skipping leading whitespace leaves an all-digit-headed list alone. -/
lemma dropWhile_ws_digits {out rest : List Char} (hne : out ≠ [])
    (hdigs : ∀ c ∈ out, isDigitCh c = true) :
    (out ++ rest).dropWhile isJsWs = out ++ rest := by
  cases out with
  | nil => exact absurd rfl hne
  | cons c t =>
    have := isDigitCh_not_ws (hdigs c (by simp))
    simp [List.dropWhile_cons, this]


lemma negSign_of_digit {c : Char} {t : List Char} (h : isDigitCh c = true) :
    negSign (c :: t) = false := by
  show (c == '-') = false
  exact beq_eq_false_iff_ne.mpr (isDigitCh_ne_minus h)

lemma stripSign_of_digit {c : Char} {t : List Char} (h : isDigitCh c = true) :
    stripSign (c :: t) = c :: t := by
  have h1 := isDigitCh_ne_minus h
  have h2 := isDigitCh_ne_plus h
  simp [stripSign, h1, h2]

lemma take8_ne_infinity {c : Char} {t : List Char} (h : isDigitCh c = true) :
    ((c :: t).take 8 = "Infinity".data) = False := by
  simp only [eq_iff_iff, iff_false]
  intro habs
  have hstep : List.take 8 (c :: t) = c :: List.take 7 t := rfl
  rw [hstep] at habs
  have hcI : c = 'I' := by
    have := congrArg List.head? habs
    simpa using this
  exact absurd hcI (isDigitCh_ne_upperI h)

lemma takeWhile_all_digits {out : List Char} (hdigs : ∀ c ∈ out, isDigitCh c = true) :
    out.takeWhile isDigitCh = out ∧ out.dropWhile isDigitCh = [] := by
  have := takeWhile_append_all out [] hdigs (Or.inl rfl)
  simpa using this

lemma jsParseFloat_digits (neg : Bool) (out : List Char) (hne : out ≠ [])
    (hdigs : ∀ c ∈ out, isDigitCh c = true) :
    jsParseFloat (String.mk (if neg then '-' :: out else out)) =
      JNum.fin (decLitVal neg out []) := by
  obtain ⟨c, t, rfl⟩ := List.exists_cons_of_ne_nil hne
  have hc : isDigitCh c = true := hdigs c (List.mem_cons_self _ _)
  have hdropd : (c :: t).dropWhile isJsWs = c :: t := by
    simp [List.dropWhile_cons, isDigitCh_not_ws hc]
  have htake := (takeWhile_all_digits hdigs).1
  have hdrop2 := (takeWhile_all_digits hdigs).2
  cases neg with
  | false =>
    simp only [Bool.false_eq_true, if_false]
    unfold jsParseFloat
    simp only [hdropd, negSign_of_digit hc, stripSign_of_digit hc,
      take8_ne_infinity hc, if_false, htake, hdrop2]
    simp
  | true =>
    simp only [if_true]
    unfold jsParseFloat
    have hdropm : ('-' :: c :: t).dropWhile isJsWs = '-' :: c :: t := by
      simp [List.dropWhile_cons, isJsWs]
    have hnegm : negSign ('-' :: c :: t) = true := by simp [negSign]
    have hstripm : stripSign ('-' :: c :: t) = c :: t := by simp [stripSign]
    simp only [hdropm, hnegm, hstripm, take8_ne_infinity hc, if_false, htake, hdrop2]
    simp

lemma numTailOf_no_dot {ds r1 : List Char} (h : r1.head? ≠ some '.') :
    numTailOf ds r1 = (ds, r1) := by
  simp [numTailOf, h]

lemma unitGate_hit (neg : Bool) (m1 u2 : List Char)
    (hunit : (String.mk (u2.map Char.toLower) = "px" ||
              String.mk (u2.map Char.toLower) = "rem" ||
              String.mk (u2.map Char.toLower) = "em" ||
              String.mk (u2.map Char.toLower) = "pt") = true) :
    unitGate neg m1 u2 =
      some ((if neg then '-' :: m1 else m1), String.mk (u2.map Char.toLower)) := by
  unfold unitGate
  rw [if_pos]
  simpa using hunit

lemma dimMatch_digits_unit (neg : Bool) (out : List Char) (hne : out ≠ [])
    (hdigs : ∀ c ∈ out, isDigitCh c = true) (ch : Char) (tl : List Char)
    (hch1 : isDigitCh ch = false) (hch2 : ch ≠ '.')
    (hunit : (String.mk ((ch :: tl).map Char.toLower) = "px" ||
              String.mk ((ch :: tl).map Char.toLower) = "rem" ||
              String.mk ((ch :: tl).map Char.toLower) = "em" ||
              String.mk ((ch :: tl).map Char.toLower) = "pt") = true) :
    dimMatch ((if neg then '-' :: out else out) ++ ch :: tl) =
      some ((if neg then '-' :: out else out),
            String.mk ((ch :: tl).map Char.toLower)) := by
  obtain ⟨c, t, rfl⟩ := List.exists_cons_of_ne_nil hne
  have hc : isDigitCh c = true := hdigs c (List.mem_cons_self _ _)
  have hsplit := takeWhile_append_all (c :: t) (ch :: tl) hdigs
    (Or.inr ⟨ch, tl, rfl, hch1⟩)
  have hsA : List.takeWhile isDigitCh (c :: (t ++ ch :: tl)) = c :: t := by
    simpa using hsplit.1
  have hsB : List.dropWhile isDigitCh (c :: (t ++ ch :: tl)) = ch :: tl := by
    simpa using hsplit.2
  have hnt : numTailOf (c :: t) (ch :: tl) = (c :: t, ch :: tl) :=
    numTailOf_no_dot (by simp [hch2])
  cases neg with
  | false =>
    simp only [Bool.false_eq_true, if_false, List.cons_append]
    unfold dimMatch
    simp only [negSign_of_digit hc, Bool.false_eq_true, if_false, hsA, hsB]
    rw [if_neg (show ¬((c :: t : List Char).isEmpty = true) by simp)]
    rw [hnt]
    simpa using unitGate_hit false (c :: t) (ch :: tl) hunit
  | true =>
    simp only [if_true, List.cons_append]
    unfold dimMatch
    have hnegm : negSign ('-' :: c :: (t ++ ch :: tl)) = true := by simp [negSign]
    simp only [hnegm, if_true, List.tail_cons, hsA, hsB]
    rw [if_neg (show ¬((c :: t : List Char).isEmpty = true) by simp)]
    rw [hnt]
    simpa using unitGate_hit true (c :: t) (ch :: tl) hunit

lemma parseDimension_digits (neg : Bool) (out : List Char) (hne : out ≠ [])
    (hdigs : ∀ c ∈ out, isDigitCh c = true) (ch : Char) (tl : List Char)
    (hch1 : isDigitCh ch = false) (hch2 : ch ≠ '.')
    (hunit : (String.mk ((ch :: tl).map Char.toLower) = "px" ||
              String.mk ((ch :: tl).map Char.toLower) = "rem" ||
              String.mk ((ch :: tl).map Char.toLower) = "em" ||
              String.mk ((ch :: tl).map Char.toLower) = "pt") = true) :
    parseDimension (JsVal.str (String.mk ((if neg then '-' :: out else out) ++ ch :: tl))) =
      some { value := JNum.fin (decLitVal neg out [])
             unit := String.mk ((ch :: tl).map Char.toLower) } := by
  have hne2 : String.mk ((if neg then '-' :: out else out) ++ ch :: tl) ≠ "" := by
    intro habs
    have := congrArg String.data habs
    cases neg <;> simp at this
  simp only [parseDimension, hne2, if_false, if_neg hne2]
  rw [dimMatch_digits_unit neg out hne hdigs ch tl hch1 hch2 hunit]
  simp [jsParseFloat_digits neg out hne hdigs, JNum.isNaN]

lemma decLitVal_int (neg : Bool) (out : List Char) :
    decLitVal neg out [] =
      (((if neg then -(decDigitsVal out : ℤ) else (decDigitsVal out : ℤ)) : ℤ) : ℚ) := by
  have h0 : decDigitsVal ([] : List Char) = 0 := rfl
  unfold decLitVal
  simp only [h0, List.length_nil, pow_zero, mul_one, Nat.cast_zero, add_zero]
  cases neg <;> simp [Rat.mkRat_one]

lemma int_toString_spec (n : ℤ) :
    ∃ (neg : Bool) (out : List Char), out ≠ [] ∧ (∀ c ∈ out, isDigitCh c = true) ∧
      (toString n).data = (if neg then '-' :: out else out) ∧
      decLitVal neg out [] = (n : ℚ) := by
  cases n with
  | ofNat m =>
    obtain ⟨out, hdata, hne, hdigs, hval⟩ := natRepr_spec m
    refine ⟨false, out, hne, hdigs, ?_, ?_⟩
    · simpa using hdata
    · rw [decLitVal_int, hval]
      simp
  | negSucc m =>
    obtain ⟨out, hdata, hne, hdigs, hval⟩ := natRepr_spec (m + 1)
    refine ⟨true, out, hne, hdigs, ?_, ?_⟩
    · show ("-" ++ Nat.repr (m + 1)).data = '-' :: out
      rw [String.data_append, hdata]
      rfl
    · rw [decLitVal_int, hval]
      simp [Int.negSucc_eq]

lemma unitGate_mem {neg : Bool} {m1 u2 m : List Char} {u : String}
    (h : unitGate neg m1 u2 = some (m, u)) :
    u = "px" ∨ u = "rem" ∨ u = "em" ∨ u = "pt" := by
  unfold unitGate at h
  dsimp only at h
  split at h
  · rename_i hcond
    have hau := congrArg Prod.snd (Option.some.inj h)
    dsimp at hau
    rw [← hau]
    simp only [Bool.or_eq_true, decide_eq_true_eq] at hcond
    tauto
  · cases h

lemma dimMatch_unit_mem {cs m : List Char} {u : String}
    (h : dimMatch cs = some (m, u)) :
    u = "px" ∨ u = "rem" ∨ u = "em" ∨ u = "pt" := by
  unfold dimMatch at h
  dsimp only at h
  repeat' split at h
  all_goals first
    | cases h
    | exact unitGate_mem h

/-- Modelled from the spec's words for claim C7 only (a refinement
reference, not code): the spec prescribes matching the dimension regex
against the input after trimming surrounding whitespace. -/
def specTrimmedDimMatch (s : String) : Option (List Char × String) :=
  dimMatch (((s.data.dropWhile isJsWs).reverse.dropWhile isJsWs).reverse)

/-- C7 counterexample: the claim says the parser succeeds exactly when the
whitespace-trimmed input matches the regex.  On `" 16px"` the trimmed input
matches (the spec-side matcher returns the groups), yet `parseDimension`
returns no-value: the code never trims. -/
theorem parseDimension_trim_counterexample :
    specTrimmedDimMatch " 16px" = some ("16".data, "px") ∧
    parseDimension (JsVal.str " 16px") = none := by
  exact ⟨by decide, by decide⟩

/-- C7 (amended): `parseDimension` matches the RAW, untrimmed string against
`^(-?\d+(?:\.\d+)?)(px|rem|em|pt)$` (case-insensitive unit, lowercased on
output).  Non-string inputs yield no-value; every success carries a unit
from the four-unit set; and for every integer `n ∈ [-10^6, 10^6]` and every
unit spelling (lower- or upper-case), parsing `"<n><unit>"` succeeds with
value `n` and the lowercased unit. -/
theorem parseDimension_amended :
    (∀ v : JsVal, (∀ s, v ≠ JsVal.str s) → parseDimension v = none) ∧
    (∀ s d, parseDimension (JsVal.str s) = some d →
      d.unit = "px" ∨ d.unit = "rem" ∨ d.unit = "em" ∨ d.unit = "pt") ∧
    (∀ n : ℤ, -(10 ^ 6) ≤ n → n ≤ 10 ^ 6 →
      ∀ pr ∈ ([("px", "px"), ("PX", "px"), ("rem", "rem"), ("REM", "rem"),
               ("em", "em"), ("EM", "em"), ("pt", "pt"), ("PT", "pt")] :
                List (String × String)),
        parseDimension (JsVal.str (toString n ++ pr.1)) =
          some { value := JNum.fin (n : ℚ), unit := pr.2 }) := by
  refine ⟨?_, ?_, ?_⟩
  · intro v hv
    cases v with
    | str s => exact absurd rfl (hv s)
    | num n => rfl
    | bool b => rfl
    | null => rfl
    | undef => rfl
    | obj fs => rfl
    | arr es => rfl
  · intro s d h
    unfold parseDimension at h
    dsimp only at h
    by_cases hs : s = ""
    · rw [if_pos hs] at h
      cases h
    · rw [if_neg hs] at h
      cases hm : dimMatch s.data with
      | none =>
        rw [hm] at h
        cases h
      | some p =>
        obtain ⟨m1, u⟩ := p
        rw [hm] at h
        dsimp only at h
        split at h
        · cases h
        · have hd : d = { value := jsParseFloat (String.mk m1), unit := u } :=
            (Option.some.inj h).symm
          rw [hd]
          exact dimMatch_unit_mem hm
  · intro n _ _ pr hpr
    obtain ⟨neg, out, hne, hdigs, hdata, hval⟩ := int_toString_spec n
    have hstr : toString n ++ pr.1 =
        String.mk ((if neg then '-' :: out else out) ++ pr.1.data) := by
      rw [show toString n ++ pr.1 = String.mk ((toString n).data ++ pr.1.data) from rfl,
        hdata]
    rw [hstr]
    fin_cases hpr <;>
    · refine (parseDimension_digits neg out hne hdigs _ _ (by decide) (by decide)
        (by decide)).trans ?_
      rw [hval]
      simp only [Option.some.injEq, SpacingValue.mk.injEq]
      refine ⟨?_, ?_⟩ <;> first | trivial | rfl | decide

/-- C7 witness: the amended theorem applied at `n = 42`, unit `"PX"`. -/
theorem parseDimension_amended_witness :
    parseDimension (JsVal.str (toString (42 : ℤ) ++ "PX")) =
      some { value := JNum.fin ((42 : ℤ) : ℚ), unit := "px" } :=
  parseDimension_amended.2.2 42 (by decide) (by decide) ("PX", "px") (by decide)

/-! ### Shared map lemmas -/

lemma mem_upsert {α : Type} {l : List (String × α)} {k : String} {v : α} {p : String × α}
    (h : p ∈ upsert l k v) : p = (k, v) ∨ p ∈ l := by
  induction l with
  | nil =>
    simp only [upsert, List.mem_singleton] at h
    exact Or.inl h
  | cons q rest ih =>
    obtain ⟨k0, v0⟩ := q
    by_cases hk : k0 = k
    · simp only [upsert, hk, if_true] at h
      rcases List.mem_cons.mp h with rfl | hmem
      · exact Or.inl rfl
      · exact Or.inr (List.mem_cons_of_mem _ hmem)
    · simp only [upsert, hk, if_false] at h
      rcases List.mem_cons.mp h with rfl | hmem
      · exact Or.inr (List.mem_cons_self _ _)
      · rcases ih hmem with h1 | h1
        · exact Or.inl h1
        · exact Or.inr (List.mem_cons_of_mem _ h1)

/-- Provenance of the entries of the `modes` record built by
`normalizeVariable`. -/
lemma modes_fold_source {entries0 : List (String × FigmaVariableValue)}
    (selId rt : String) (idMap m2 : List (String × String)) :
    ∀ (entries : List (String × FigmaVariableValue))
      (acc : List (String × TokenValueOrAlias)),
      (∀ q ∈ entries, q ∈ entries0) →
      (∀ p ∈ acc, ∃ mid mv, mid ≠ selId ∧ (mid, mv) ∈ entries0 ∧
        p.1 = modeDisplayName m2 mid ∧
        normalizeVariableValue mv rt idMap = some p.2) →
      ∀ p ∈ entries.foldl
        (fun acc q =>
          if q.1 = selId then acc
          else
            match normalizeVariableValue q.2 rt idMap with
            | some nv => upsert acc (modeDisplayName m2 q.1) nv
            | none => acc) acc,
        ∃ mid mv, mid ≠ selId ∧ (mid, mv) ∈ entries0 ∧
          p.1 = modeDisplayName m2 mid ∧
          normalizeVariableValue mv rt idMap = some p.2 := by
  intro entries
  induction entries with
  | nil => intro acc _ hacc p hp; exact hacc p hp
  | cons e es ih =>
    intro acc hsub hacc p hp
    simp only [List.foldl_cons] at hp
    by_cases hsel : e.1 = selId
    · rw [if_pos hsel] at hp
      exact ih acc (fun q hq => hsub q (List.mem_cons_of_mem _ hq)) hacc p hp
    · rw [if_neg hsel] at hp
      cases hnv : normalizeVariableValue e.2 rt idMap with
      | none =>
        rw [hnv] at hp
        exact ih acc (fun q hq => hsub q (List.mem_cons_of_mem _ hq)) hacc p hp
      | some nv =>
        rw [hnv] at hp
        refine ih _ (fun q hq => hsub q (List.mem_cons_of_mem _ hq)) ?_ p hp
        intro q hq
        rcases mem_upsert hq with rfl | hmem
        · exact ⟨e.1, e.2, hsel, hsub e (List.mem_cons_self _ _), rfl, hnv⟩
        · exact hacc q hmem

/-! ### C6: non-finite FLOAT casts -/

/-- C6 counterexample: the claim says a `{type: VALUE}` FLOAT mode value
whose cast is non-finite is skipped.  The code has no finiteness check:
`Number("abc")` is NaN and the NaN payload is emitted. -/
theorem parseValue_nonfinite_counterexample :
    normalizeVariableValue { type := "VALUE", value := FigmaPrim.str "abc" } "FLOAT" [] =
      some (TokenValueOrAlias.value (TokenPayload.num JNum.nan)) := rfl

/-- C6 (amended): `parseValue` casts FLOAT payloads directly with no
finiteness check: a numeric payload is passed through unchanged (NaN and
infinities included), and a string payload always yields its `Number(...)`
cast, NaN included; only `undefined`/`null` payloads are rejected. -/
theorem parseValue_float_amended :
    (∀ (s : String) (m : List (String × String)),
      normalizeVariableValue { type := "VALUE", value := FigmaPrim.str s } "FLOAT" m =
        some (TokenValueOrAlias.value (TokenPayload.num (jsStringToNumber s)))) ∧
    (∀ (n : JNum) (m : List (String × String)),
      normalizeVariableValue { type := "VALUE", value := FigmaPrim.num n } "FLOAT" m =
        some (TokenValueOrAlias.value (TokenPayload.num n))) ∧
    (∀ (m : List (String × String)),
      normalizeVariableValue { type := "VALUE", value := FigmaPrim.undef } "FLOAT" m =
        none) := by
  exact ⟨fun s m => rfl, fun n m => rfl, fun m => rfl⟩

/-- Provenance of `buildModes` entries. -/
lemma buildModes_source {values : List (String × FigmaVariableValue)}
    {selId rt : String} {idMap m2 : List (String × String)}
    {p : String × TokenValueOrAlias} (hp : p ∈ buildModes values selId rt idMap m2) :
    ∃ mid mv, mid ≠ selId ∧ (mid, mv) ∈ values ∧
      p.1 = modeDisplayName m2 mid ∧
      normalizeVariableValue mv rt idMap = some p.2 :=
  modes_fold_source selId rt idMap m2 values [] (fun _ hq => hq) (fun _ hq => absurd hq
    (List.not_mem_nil _)) p hp

/-- The shape of every successful `normalizeVariable` call. -/
lemma normalizeVariable_success {v : FigmaVariable} {m1 m2 : List (String × String)}
    {dm : Option String} {tok : NormalizedToken} {w : List String}
    (h : normalizeVariable v m1 m2 dm = (some tok, w)) :
    ∃ first rest, v.values_by_mode = first :: rest ∧
      tok.id = v.id ∧ tok.name = normalizeVariableName v.name ∧
      normalizeVariableValue (selectDefaultMode v.values_by_mode first dm).2
        v.resolved_type m1 = some tok.value ∧
      tok.modes = buildModes v.values_by_mode
        (selectDefaultMode v.values_by_mode first dm).1 v.resolved_type m1 m2 := by
  unfold normalizeVariable at h
  cases hty : mapFigmaTypeToTokenType v.resolved_type with
  | none =>
    rw [hty] at h
    exact absurd (congrArg Prod.fst h) (by simp)
  | some tt =>
    rw [hty] at h
    dsimp only at h
    cases hvbm : v.values_by_mode with
    | nil =>
      rw [hvbm] at h
      exact absurd (congrArg Prod.fst h) (by simp)
    | cons first rest =>
      rw [hvbm] at h
      dsimp only at h
      cases hnv : normalizeVariableValue
          (selectDefaultMode (first :: rest) first dm).2 v.resolved_type m1 with
      | none =>
        rw [hnv] at h
        exact absurd (congrArg Prod.fst h) (by simp)
      | some dv =>
        rw [hnv] at h
        dsimp only at h
        have htok := Option.some.inj (congrArg Prod.fst h)
        subst htok
        exact ⟨first, rest, rfl, rfl, rfl, hnv, rfl⟩

/-- The shape of every successful `normalizeDTCGToken` call. -/
lemma normalizeDTCGToken_success {path : String} {token : JsVal}
    {allTokens : List (String × JsVal)} {tok : NormalizedToken} {w : List String}
    (h : normalizeDTCGToken path token allTokens = (some tok, w)) :
    tok.name = path ∧ tok.id = lowerHyphenId path := by
  unfold normalizeDTCGToken at h
  cases hty : token.getField "$type" with
  | none =>
    rw [hty] at h
    exact absurd (congrArg Prod.fst h) (by simp)
  | some tv =>
    rw [hty] at h
    cases tv with
    | str ty =>
      dsimp only at h
      by_cases h0 : ty = ""
      · rw [if_pos h0] at h
        exact absurd (congrArg Prod.fst h) (by simp)
      · rw [if_neg h0] at h
        by_cases h1 : ty = "typography"
        · rw [if_pos h1] at h
          split at h
          · have htok := Option.some.inj (congrArg Prod.fst h)
            subst htok
            exact ⟨rfl, rfl⟩
          · exact absurd (congrArg Prod.fst h) (by simp)
        · rw [if_neg h1] at h
          cases hm : mapDTCGTypeToTokenType ty (some path) with
          | none =>
            rw [hm] at h
            exact absurd (congrArg Prod.fst h) (by simp)
          | some nty =>
            rw [hm] at h
            dsimp only at h
            cases hv : normalizeDTCGTokenValue ((token.getField "$value").getD JsVal.undef)
                ty path allTokens with
            | none =>
              rw [hv] at h
              exact absurd (congrArg Prod.fst h) (by simp)
            | some dv =>
              rw [hv] at h
              dsimp only at h
              have htok := Option.some.inj (congrArg Prod.fst h)
              subst htok
              exact ⟨rfl, rfl⟩
    | num n => dsimp only at h; exact absurd (congrArg Prod.fst h) (by simp)
    | bool b => dsimp only at h; exact absurd (congrArg Prod.fst h) (by simp)
    | null => dsimp only at h; exact absurd (congrArg Prod.fst h) (by simp)
    | undef => dsimp only at h; exact absurd (congrArg Prod.fst h) (by simp)
    | obj fs => dsimp only at h; exact absurd (congrArg Prod.fst h) (by simp)
    | arr es => dsimp only at h; exact absurd (congrArg Prod.fst h) (by simp)

/-- A variable whose id is a Figma-style opaque id, unrelated to its
normalized name. -/
def cexVar2 : FigmaVariable :=
  { id := "VariableID:1:2", name := "Color/Primary", variable_collection_id := "c1",
    resolved_type := "FLOAT", description := "",
    values_by_mode := [("m1", { type := "VALUE", value := FigmaPrim.num (JNum.fin 1) })] }

/-- C2 counterexample: the variables normalizer emits `id = variable.id`
verbatim ("VariableID:1:2"), which is not the token name with dots replaced
by hyphens ("color-primary"). -/
theorem token_naming_counterexample :
    (normalizeVariable cexVar2 [] [] none).1 =
      some { id := "VariableID:1:2", name := "color.primary", type := "number",
             value := TokenValueOrAlias.value (TokenPayload.num (JNum.fin 1)),
             modes := [], description := none, source := "figma",
             sourceId := some "VariableID:1:2" } ∧
    "VariableID:1:2" ≠
      String.mk ("color.primary".data.map fun c => if c = '.' then '-' else c) := by
  exact ⟨rfl, by decide⟩

/-- C2 (amended): the variables normalizer emits `name =
normalizeVariableName(variable.name)` (lowercase, slashes to dots,
whitespace runs to hyphens) but `id = variable.id`, the source id; the DTCG
normalizer emits `name = path` verbatim (not lowercased) and `id =` the path
with dots replaced by hyphens and then lowercased.  Neither normalizer
derives `id` from `name` by dot-to-hyphen substitution alone, and no
non-emptiness is enforced. -/
theorem token_naming_amended :
    (∀ (v : FigmaVariable) (m1 m2 : List (String × String)) (dm : Option String)
        (tok : NormalizedToken) (w : List String),
        normalizeVariable v m1 m2 dm = (some tok, w) →
        tok.id = v.id ∧ tok.name = normalizeVariableName v.name) ∧
    (∀ (path : String) (token : JsVal) (allTokens : List (String × JsVal))
        (tok : NormalizedToken) (w : List String),
        normalizeDTCGToken path token allTokens = (some tok, w) →
        tok.name = path ∧ tok.id = lowerHyphenId path) := by
  constructor
  · intro v m1 m2 dm tok w h
    obtain ⟨f, r, _, hid, hname, _, _⟩ := normalizeVariable_success h
    exact ⟨hid, hname⟩
  · intro path token allTokens tok w h
    exact normalizeDTCGToken_success h

/-- The token emitted for `cexVar2`. -/
def cexTok2 : NormalizedToken :=
  { id := "VariableID:1:2", name := "color.primary", type := "number",
    value := TokenValueOrAlias.value (TokenPayload.num (JNum.fin 1)),
    modes := [], description := none, source := "figma",
    sourceId := some "VariableID:1:2" }

/-- C2 witness: the amended naming facts at a concrete variable. -/
theorem token_naming_amended_witness :
    cexTok2.id = cexVar2.id ∧ cexTok2.name = normalizeVariableName cexVar2.name :=
  token_naming_amended.1 cexVar2 [] [] none cexTok2 [] (by rfl)

/-- A variable carrying a value under the empty-string mode id alongside a
normal mode. -/
def cexVar5 : FigmaVariable :=
  { id := "V5", name := "size/base", variable_collection_id := "c1",
    resolved_type := "FLOAT", description := "",
    values_by_mode :=
      [("m1", { type := "VALUE", value := FigmaPrim.num (JNum.fin 1) }),
       ("", { type := "VALUE", value := FigmaPrim.num (JNum.fin 2) })] }

/-- C5 counterexample: with `default_mode_id = ""` — a key of
`values_by_mode` — the claim demands that mode's value (2) as the primary
and no entry for it under `modes`; the code's truthiness test
(`defaultModeId && ...`) drops the empty id, picks the first mode (value 1)
and keeps the `""` mode as a `modes` entry. -/
theorem default_mode_empty_counterexample :
    alookup cexVar5.values_by_mode "" =
      some { type := "VALUE", value := FigmaPrim.num (JNum.fin 2) } ∧
    (normalizeVariable cexVar5 [] [] (some "")).1 =
      some { id := "V5", name := "size.base", type := "number",
             value := TokenValueOrAlias.value (TokenPayload.num (JNum.fin 1)),
             modes := [("", TokenValueOrAlias.value (TokenPayload.num (JNum.fin 2)))],
             description := none, source := "figma", sourceId := some "V5" } := by
  exact ⟨rfl, rfl⟩

/-- C5 (amended): if the collection's `default_mode_id` is NON-EMPTY and a
key of `values_by_mode`, the value under that mode becomes the token's
primary value and the selected mode never also appears under `modes` (every
`modes` entry stems from a different mode id); otherwise (no id, empty id,
or an id that is not a key) the first entry of `values_by_mode` in insertion
order becomes the primary value. -/
theorem default_mode_amended :
    (∀ (v : FigmaVariable) (m1 m2 : List (String × String)) (d : String)
        (val : FigmaVariableValue) (tok : NormalizedToken) (w : List String),
        d ≠ "" →
        alookup v.values_by_mode d = some val →
        normalizeVariable v m1 m2 (some d) = (some tok, w) →
        normalizeVariableValue val v.resolved_type m1 = some tok.value ∧
        ∀ p ∈ tok.modes, ∃ mid mv, mid ≠ d ∧ (mid, mv) ∈ v.values_by_mode ∧
          p.1 = modeDisplayName m2 mid ∧
          normalizeVariableValue mv v.resolved_type m1 = some p.2) ∧
    (∀ (v : FigmaVariable) (m1 m2 : List (String × String)) (dm : Option String)
        (tok : NormalizedToken) (w : List String),
        (dm = none ∨ ∃ d, dm = some d ∧ (d = "" ∨ alookup v.values_by_mode d = none)) →
        normalizeVariable v m1 m2 dm = (some tok, w) →
        ∃ first rest, v.values_by_mode = first :: rest ∧
          normalizeVariableValue first.2 v.resolved_type m1 = some tok.value) := by
  constructor
  · intro v m1 m2 d val tok w hd hlook h
    obtain ⟨first, rest, hvbm, _, _, hval, hmodes⟩ := normalizeVariable_success h
    have hsel : selectDefaultMode v.values_by_mode first (some d) = (d, val) := by
      simp [selectDefaultMode, hd, hlook]
    rw [hsel] at hval hmodes
    refine ⟨hval, ?_⟩
    intro p hp
    rw [hmodes] at hp
    exact buildModes_source hp
  · intro v m1 m2 dm tok w hfall h
    obtain ⟨first, rest, hvbm, _, _, hval, _⟩ := normalizeVariable_success h
    have hsel : selectDefaultMode v.values_by_mode first dm = first := by
      rcases hfall with rfl | ⟨d, rfl, hcase⟩
      · rfl
      · rcases hcase with rfl | hnone
        · simp [selectDefaultMode]
        · simp [selectDefaultMode, hnone]
    rw [hsel] at hval
    exact ⟨first, rest, hvbm, hval⟩

/-- The token emitted for `cexVar5` when the default mode is `"m1"`. -/
def cexTok5 : NormalizedToken :=
  { id := "V5", name := "size.base", type := "number",
    value := TokenValueOrAlias.value (TokenPayload.num (JNum.fin 1)),
    modes := [("", TokenValueOrAlias.value (TokenPayload.num (JNum.fin 2)))],
    description := none, source := "figma", sourceId := some "V5" }

/-- C5 witness: the amended default-mode selection at a concrete variable
with `default_mode_id = "m1"`. -/
theorem default_mode_amended_witness :
    normalizeVariableValue { type := "VALUE", value := FigmaPrim.num (JNum.fin 1) }
        cexVar5.resolved_type [] = some cexTok5.value ∧
    ∀ p ∈ cexTok5.modes, ∃ mid mv, mid ≠ "m1" ∧ (mid, mv) ∈ cexVar5.values_by_mode ∧
      p.1 = modeDisplayName [] mid ∧
      normalizeVariableValue mv cexVar5.resolved_type [] = some p.2 :=
  default_mode_amended.1 cexVar5 [] [] "m1"
    { type := "VALUE", value := FigmaPrim.num (JNum.fin 1) } cexTok5 []
    (by decide) (by rfl) (by rfl)

/-! ### C8: importer settled semantics -/

lemma modeDisplayName_nil (mid : String) : modeDisplayName [] mid = mid := rfl

lemma ingestStep_warnings (m1 m2 m3 : List (String × String))
    (st : List (String × NormalizedToken) × List String) (p : String × FigmaVariable) :
    ∃ w0, (ingestStep m1 m2 m3 st p).2 = st.2 ++ w0 := by
  dsimp only [ingestStep]
  cases hr : (normalizeVariable p.2 m1 m2 (alookup m3 p.2.variable_collection_id)).1 with
  | none => exact ⟨_, rfl⟩
  | some token =>
    dsimp only
    split
    · exact ⟨_, List.append_assoc _ _ _⟩
    · exact ⟨_, rfl⟩

lemma ingest_fold_warnings (m1 m2 m3 : List (String × String)) :
    ∀ (vars : List (String × FigmaVariable))
      (acc : List (String × NormalizedToken) × List String),
      ∃ w', (vars.foldl (ingestStep m1 m2 m3) acc).2 = acc.2 ++ w' := by
  intro vars
  induction vars with
  | nil => intro acc; exact ⟨[], (List.append_nil _).symm⟩
  | cons p ps ih =>
    intro acc
    obtain ⟨w0, hw0⟩ := ingestStep_warnings m1 m2 m3 acc p
    obtain ⟨w', hw'⟩ := ih (ingestStep m1 m2 m3 acc p)
    refine ⟨w0 ++ w', ?_⟩
    rw [List.foldl_cons, hw', hw0, List.append_assoc]

lemma ingest_fold_tokens {vars0 : List (String × FigmaVariable)}
    (m1 m2 m3 : List (String × String)) :
    ∀ (vars : List (String × FigmaVariable))
      (acc : List (String × NormalizedToken) × List String),
      (∀ q ∈ vars, q ∈ vars0) →
      (∀ q ∈ acc.1, ∃ idv ∈ vars0, ∃ w,
        normalizeVariable idv.2 m1 m2 (alookup m3 idv.2.variable_collection_id) =
          (some q.2, w)) →
      ∀ q ∈ (vars.foldl (ingestStep m1 m2 m3) acc).1,
        ∃ idv ∈ vars0, ∃ w,
          normalizeVariable idv.2 m1 m2 (alookup m3 idv.2.variable_collection_id) =
            (some q.2, w) := by
  intro vars
  induction vars with
  | nil => intro acc _ hacc q hq; exact hacc q hq
  | cons p ps ih =>
    intro acc hsub hacc q hq
    rw [List.foldl_cons] at hq
    refine ih (ingestStep m1 m2 m3 acc p)
      (fun r hr => hsub r (List.mem_cons_of_mem _ hr)) ?_ q hq
    intro r hr
    dsimp only [ingestStep] at hr
    cases hro : (normalizeVariable p.2 m1 m2 (alookup m3 p.2.variable_collection_id)).1 with
    | none =>
      rw [hro] at hr
      exact hacc r hr
    | some token =>
      rw [hro] at hr
      dsimp only at hr
      rcases mem_upsert hr with rfl | hmem
      · exact ⟨p, hsub p (List.mem_cons_self _ _),
          (normalizeVariable p.2 m1 m2 (alookup m3 p.2.variable_collection_id)).2,
          Prod.ext_iff.mpr ⟨hro, rfl⟩⟩
      · exact hacc r hmem

/-- C8: a failed variables fetch is fatal with the `Figma import failed:`
prefix; a failed collections fetch is not: the ingest succeeds, its first
warning is exactly the documented collections warning, the errors list is
empty, and every mode key of every emitted token is a raw mode id of some
input variable (the mode-name table being empty). -/
theorem figmaIngest_settled :
    (∀ (fk msg : String) (colls : Except String (List (String × FigmaVariableCollection))),
      figmaIngest fk (Except.error msg) colls =
        Except.error ("Figma import failed: " ++ msg)) ∧
    (∀ (fk msg : String) (vars : List (String × FigmaVariable)),
      ∃ res, figmaIngest fk (Except.ok vars) (Except.error msg) = Except.ok res ∧
        res.warnings.head? = some ("Failed to fetch variable collections: " ++ msg ++
          ". Continuing with mode IDs instead of names.") ∧
        res.errors = [] ∧
        ∀ q ∈ res.tokenSet.tokens, ∀ pm ∈ q.2.modes,
          ∃ idv ∈ vars, pm.1 ∈ idv.2.values_by_mode.map Prod.fst) := by
  constructor
  · intro fk msg colls
    rfl
  · intro fk msg vars
    refine ⟨_, rfl, ?_, rfl, ?_⟩
    · obtain ⟨w', hw⟩ := ingest_fold_warnings
        (vars.foldl (fun acc p => upsert acc p.1 (normalizeVariableName p.2.name)) []) [] []
        vars ([], ["Failed to fetch variable collections: " ++ msg ++
          ". Continuing with mode IDs instead of names."])
      dsimp only [figmaIngest, List.foldl]
      rw [hw]
      rfl
    · intro q hq pm hpm
      dsimp only [figmaIngest, List.foldl] at hq
      have hprov := ingest_fold_tokens
        (vars.foldl (fun acc p => upsert acc p.1 (normalizeVariableName p.2.name)) []) [] []
        vars ([], ["Failed to fetch variable collections: " ++ msg ++
          ". Continuing with mode IDs instead of names."])
        (fun r hr => hr) (fun r hr => absurd hr (List.not_mem_nil _)) q hq
      obtain ⟨idv, hmem, w, hnv⟩ := hprov
      obtain ⟨first, rest, hvbm, _, _, _, hmodes⟩ := normalizeVariable_success hnv
      rw [hmodes] at hpm
      obtain ⟨mid, mv, _, hmidmem, hname, _⟩ := buildModes_source hpm
      refine ⟨idv, hmem, ?_⟩
      rw [hname, modeDisplayName_nil]
      exact List.mem_map_of_mem Prod.fst hmidmem

/-- C8 witness: the fatal-variables branch at a concrete failure. -/
theorem figmaIngest_settled_witness :
    figmaIngest "filekey" (Except.error "boom") (Except.ok []) =
      Except.error ("Figma import failed: " ++ "boom") :=
  figmaIngest_settled.1 "filekey" "boom" (Except.ok [])

/-! ### C9: the non-object diagnostic of `validateToken` is unreachable -/

lemma sizeOf_lt_of_mem_objFields {fs : List (String × JsVal)} {k : String} {v : JsVal}
    (h : (k, v) ∈ fs) : sizeOf v < sizeOf (JsVal.obj fs) := by
  have h1 := List.sizeOf_lt_of_mem h
  simp only [Prod.mk.sizeOf_spec] at h1
  simp only [JsVal.obj.sizeOf_spec]
  omega

lemma sizeOf_lt_of_mem_arrElems {es : List JsVal} {v : JsVal} (h : v ∈ es) :
    sizeOf v < sizeOf (JsVal.arr es) := by
  have h1 := List.sizeOf_lt_of_mem h
  simp only [JsVal.arr.sizeOf_spec]
  omega

lemma kidsF_eq (path : String) :
    ∀ fs : List (String × JsVal),
      (∀ k v, (k, v) ∈ fs → v.isObjTruthy = true →
        ∀ q, validateTokenV v q = validateTokenPruned v q) →
      validateKidsF fs path = validatePrunedKidsF fs path := by
  intro fs
  induction fs with
  | nil => intro _; rfl
  | cons p rest ihf =>
    intro hmem
    obtain ⟨k, v⟩ := p
    rw [validateKidsF, validatePrunedKidsF]
    have htail := ihf fun a b hb => hmem a b (List.mem_cons_of_mem _ hb)
    by_cases hg : (isChildKey k && v.isObjTruthy) = true
    · rw [if_pos hg, if_pos hg, htail,
        hmem k v (List.mem_cons_self _ _) ((Bool.and_eq_true _ _).mp hg).2]
    · rw [if_neg hg, if_neg hg, htail]

lemma kidsE_eq (path : String) :
    ∀ (es : List JsVal) (i : ℕ),
      (∀ v ∈ es, v.isObjTruthy = true →
        ∀ q, validateTokenV v q = validateTokenPruned v q) →
      validateKidsE es i path = validatePrunedKidsE es i path := by
  intro es
  induction es with
  | nil => intro i _; rfl
  | cons v rest ihe =>
    intro i hmem
    rw [validateKidsE, validatePrunedKidsE]
    have htail := ihe (i + 1) fun a ha => hmem a (List.mem_cons_of_mem _ ha)
    by_cases hg : (isChildKey (toString i) && v.isObjTruthy) = true
    · rw [if_pos hg, if_pos hg, htail,
        hmem v (List.mem_cons_self _ _) ((Bool.and_eq_true _ _).mp hg).2]
    · rw [if_neg hg, if_neg hg, htail]

lemma validateV_eq_pruned_aux :
    ∀ n : ℕ, ∀ t : JsVal, sizeOf t ≤ n → t.isObjTruthy = true →
      ∀ path, validateTokenV t path = validateTokenPruned t path := by
  intro n
  induction n with
  | zero =>
    intro t ht
    exfalso
    have hpos : 0 < sizeOf t := by
      cases t <;>
        simp only [JsVal.obj.sizeOf_spec, JsVal.arr.sizeOf_spec, JsVal.str.sizeOf_spec,
          JsVal.num.sizeOf_spec, JsVal.bool.sizeOf_spec, JsVal.null.sizeOf_spec,
          JsVal.undef.sizeOf_spec] <;> omega
    omega
  | succ n ih =>
    intro t ht htr path
    rw [validateTokenV.eq_def, validateTokenPruned.eq_def, if_pos htr, if_pos htr]
    dsimp only
    by_cases hk : (tokenOwnErrs t path).2 = true
    · rw [if_pos hk, if_pos hk]
      cases t with
      | obj fs =>
        refine congrArg _ (kidsF_eq path fs fun a b hb htv q => ?_)
        have hlt := sizeOf_lt_of_mem_objFields hb
        exact ih b (by simp only [JsVal.obj.sizeOf_spec] at ht hlt ⊢; omega) htv q
      | arr es =>
        refine congrArg _ (kidsE_eq path es 0 fun b hb htv q => ?_)
        have hlt := sizeOf_lt_of_mem_arrElems hb
        exact ih b (by simp only [JsVal.arr.sizeOf_spec] at ht hlt ⊢; omega) htv q
      | str s => rfl
      | num m => rfl
      | bool b => rfl
      | null => rfl
      | undef => rfl
    · rw [if_neg hk, if_neg hk]

lemma validateTokenV_eq_pruned {t : JsVal} (path : String)
    (h : t.isObjTruthy = true) :
    validateTokenV t path = validateTokenPruned t path :=
  validateV_eq_pruned_aux (sizeOf t) t le_rfl h path

/-- C9: the branch of `validateToken` that reports `Token at path ... must be
an object` is unreachable from `validateDTCGFile`: the file behaves exactly
as the pruned walker in which that diagnostic is replaced by silence (every
recursive entry is guarded by the same truthy-object test), and a document
whose only flaw is a bare string where a token object was expected still
validates with `valid = true` and no errors. -/
theorem validateDTCGFile_nonobject_unreachable :
    (∀ file : JsVal, validateDTCGFile file = validateDTCGFilePruned file) ∧
    validateDTCGFile (JsVal.obj
      [("color", JsVal.obj [("primary", JsVal.str "#fff")]),
       ("bad", JsVal.str "not an object")]) =
      { valid := true, errors := [] } := by
  constructor
  · intro file
    rw [validateDTCGFile, validateDTCGFilePruned]
    by_cases hf : file.isObjTruthy = true
    · rw [if_pos hf, if_pos hf]
      dsimp only
      have hmap : (file.entriesOf.map fun p =>
          if p.1 != "$schema" && p.2.isObjTruthy then validateTokenV p.2 p.1
          else []) =
          (file.entriesOf.map fun p =>
          if p.1 != "$schema" && p.2.isObjTruthy then validateTokenPruned p.2 p.1
          else []) := by
        refine List.map_congr_left fun p hp => ?_
        by_cases hc : (p.1 != "$schema" && p.2.isObjTruthy) = true
        · rw [if_pos hc, if_pos hc,
            validateTokenV_eq_pruned p.1 ((Bool.and_eq_true _ _).mp hc).2]
        · rw [if_neg hc, if_neg hc]
      rw [hmap]
    · rw [if_neg hf, if_neg hf]
  · rfl

/-! ### C3: path bookkeeping for the flattener -/

lemma intercalate_go_append (l : List String) :
    ∀ a1 a2 : String, String.intercalate.go (a1 ++ a2) "." l =
      a1 ++ String.intercalate.go a2 "." l := by
  induction l with
  | nil => intro a1 a2; rfl
  | cons b bs ih =>
    intro a1 a2
    show String.intercalate.go (a1 ++ a2 ++ "." ++ b) "." bs =
      a1 ++ String.intercalate.go (a2 ++ "." ++ b) "." bs
    rw [String.append_assoc a1 a2 ".", String.append_assoc a1 (a2 ++ ".") b]
    exact ih a1 ((a2 ++ ".") ++ b)

lemma joinDot_cons (a : String) (l : List String) (h : l ≠ []) :
    joinDot (a :: l) = a ++ "." ++ joinDot l := by
  cases l with
  | nil => exact absurd rfl h
  | cons b bs =>
    show String.intercalate.go (a ++ "." ++ b) "." bs =
      (a ++ ".") ++ String.intercalate.go b "." bs
    exact intercalate_go_append bs (a ++ ".") b

lemma splitDotAux_ne_nil : ∀ (l acc : List Char), splitDotAux l acc ≠ [] := by
  intro l
  induction l with
  | nil => intro acc h; simp [splitDotAux] at h
  | cons c cs ih =>
    intro acc
    rw [splitDotAux]
    split
    · simp
    · exact ih _

lemma splitDotAux_dot (l2 : List Char) :
    ∀ (l1 acc : List Char), splitDotAux (l1 ++ '.' :: l2) acc =
      splitDotAux l1 acc ++ splitDotAux l2 [] := by
  intro l1
  induction l1 with
  | nil => intro acc; simp [splitDotAux]
  | cons c cs ih =>
    intro acc
    by_cases hc : c = '.'
    · subst hc
      rw [List.cons_append, splitDotAux, if_pos rfl, ih, splitDotAux, if_pos rfl,
        List.cons_append]
    · rw [List.cons_append, splitDotAux, if_neg hc, ih, splitDotAux, if_neg hc]

lemma joinDot_splitDotAux : ∀ (l acc : List Char),
    joinDot (splitDotAux l acc) = String.mk (acc.reverse ++ l) := by
  intro l
  induction l with
  | nil =>
    intro acc
    show String.intercalate "." [String.mk acc.reverse] = String.mk (acc.reverse ++ [])
    rw [List.append_nil]
    rfl
  | cons c cs ih =>
    intro acc
    by_cases hc : c = '.'
    · subst hc
      rw [splitDotAux, if_pos rfl,
        joinDot_cons _ _ (splitDotAux_ne_nil cs []), ih []]
      apply String.ext
      simp [String.data_append]
    · rw [splitDotAux, if_neg hc, ih (c :: acc)]
      apply String.ext
      simp

lemma joinDot_splitDot (k : String) : joinDot (splitDot k) = k := by
  rw [splitDot, joinDot_splitDotAux k.data []]
  rfl

lemma splitDot_ne_nil (k : String) : splitDot k ≠ [] :=
  splitDotAux_ne_nil k.data []

lemma splitDot_child (k seg : String) (hk : k ≠ "")
    (hseg : splitDotAux seg.data [] = [seg]) :
    splitDot (childPath k seg) = splitDot k ++ [seg] := by
  rw [childPath, if_neg hk, splitDot]
  have hdata : (k ++ "." ++ seg).data = k.data ++ '.' :: seg.data := by
    rw [String.data_append, String.data_append]
    simp
  rw [hdata, splitDotAux_dot seg.data k.data [], hseg]
  rfl

lemma childPath_ne_parent (k r : String) (hk : k ≠ "") : childPath k r ≠ k := by
  rw [childPath, if_neg hk]
  intro h
  have hl := congrArg String.length h
  rw [String.length_append, String.length_append] at hl
  have hdot : ("." : String).length = 1 := rfl
  omega

lemma ext_ne_parent (k r : String) : k ++ "." ++ r ≠ k := by
  intro h
  have hl := congrArg String.length h
  rw [String.length_append, String.length_append] at hl
  have hdot : ("." : String).length = 1 := rfl
  omega

lemma childPath_inj (k a b : String) (hk : k ≠ "") (hab : a ≠ b) :
    childPath k a ≠ childPath k b := by
  rw [childPath, if_neg hk, childPath, if_neg hk]
  intro h
  apply hab
  have hd := congrArg String.data h
  rw [String.data_append, String.data_append, String.data_append,
    String.data_append] at hd
  exact String.ext (List.append_cancel_left hd)

lemma childPath_ne_empty (k r : String) (hk : k ≠ "") : childPath k r ≠ "" := by
  rw [childPath, if_neg hk]
  intro h
  have hl := congrArg String.length h
  rw [String.length_append, String.length_append] at hl
  have hdot : ("." : String).length = 1 := rfl
  have : ("" : String).length = 0 := rfl
  omega

lemma alookup_cons_self {α : Type} (k : String) (v : α) (t : List (String × α)) :
    alookup ((k, v) :: t) k = some v := by
  simp [alookup]

lemma alookup_none_of_forall {α : Type} {l : List (String × α)} {k : String}
    (h : ∀ p ∈ l, p.1 ≠ k) : alookup l k = none := by
  induction l with
  | nil => rfl
  | cons p t ih =>
    rw [alookup, List.find?]
    have hp : (p.1 == k) = false := by
      simp only [beq_eq_false_iff_ne, ne_eq]
      exact h p (List.mem_cons_self _ _)
    rw [hp]
    exact ih fun q hq => h q (List.mem_cons_of_mem _ hq)

lemma processNode_spec (node : JsVal) (p : String) (st : FlatState) :
    processNode node p st =
      if (match node.getField "$type" with
          | some (JsVal.str _) => true
          | _ => false) then
        let segs := splitDot p
        let lastSegment := segs.getLast?.getD ""
        let parentP : Option String :=
          if segs.length > 1 then some (joinDot segs.dropLast) else none
        let shouldSkip := typographyPropertyNames.contains lastSegment &&
          (match parentP with
           | some pp => (alookup st.typographyGroups pp).isSome
           | none => false)
        if shouldSkip then st
        else { st with tokens := upsert st.tokens p node }
      else if isTypographyGroup node then
        let st1 : FlatState :=
          { st with typographyGroups := upsert st.typographyGroups p node }
        match node with
        | JsVal.obj fs => processFields fs p st1
        | JsVal.arr es => processElems es 0 p st1
        | _ => st1
      else
        match node with
        | JsVal.obj fs => processFields fs p st
        | JsVal.arr es => processElems es 0 p st
        | _ => st := by
  cases node <;> rfl

lemma processNode_skip_typprop {node : JsVal} {ty : String}
    (hty : node.getField "$type" = some (JsVal.str ty))
    (k seg : String) (hk : k ≠ "")
    (hseg : splitDotAux seg.data [] = [seg])
    (hmem : typographyPropertyNames.contains seg = true)
    (st : FlatState) (hreg : (alookup st.typographyGroups k).isSome = true) :
    processNode node (childPath k seg) st = st := by
  rw [processNode_spec, hty]
  dsimp only
  rw [if_pos rfl]
  rw [splitDot_child k seg hk hseg, List.getLast?_concat]
  have hlen : 1 < (splitDot k ++ [seg]).length := by
    rw [List.length_append]
    have := List.length_pos.mpr (splitDot_ne_nil k)
    simp only [List.length_singleton]
    omega
  rw [if_pos hlen, List.dropLast_concat, joinDot_splitDot]
  dsimp only [Option.getD]
  rw [hmem, hreg]
  rfl

lemma processFields_keys :
    ∀ (fs : List (String × JsVal)) (p : String) (st : FlatState), p ≠ "" →
      (∀ c v, (c, v) ∈ fs → ∀ st1 : FlatState,
        (∀ q w, (q, w) ∈ (processNode v (childPath p c) st1).tokens →
          (q, w) ∈ st1.tokens ∨ q = childPath p c ∨
            ∃ r, q = childPath p c ++ "." ++ r) ∧
        (∀ q w, (q, w) ∈ (processNode v (childPath p c) st1).typographyGroups →
          (q, w) ∈ st1.typographyGroups ∨ q = childPath p c ∨
            ∃ r, q = childPath p c ++ "." ++ r)) →
      (∀ q w, (q, w) ∈ (processFields fs p st).tokens →
        (q, w) ∈ st.tokens ∨ ∃ r, q = p ++ "." ++ r) ∧
      (∀ q w, (q, w) ∈ (processFields fs p st).typographyGroups →
        (q, w) ∈ st.typographyGroups ∨ ∃ r, q = p ++ "." ++ r) := by
  intro fs
  induction fs with
  | nil =>
    intro p st hp _
    exact ⟨fun q w hq => Or.inl hq, fun q w hq => Or.inl hq⟩
  | cons x rest ih =>
    intro p st hp hrec
    obtain ⟨c, v⟩ := x
    rw [processFields]
    have hrest := ih p
      (if isChildKey c && v.isObjTruthy then processNode v (childPath p c) st else st)
      hp (fun c1 v1 h1 => hrec c1 v1 (List.mem_cons_of_mem _ h1))
    have hstep : ∀ q w,
        ((q, w) ∈ (if isChildKey c && v.isObjTruthy then
            processNode v (childPath p c) st else st).tokens →
          (q, w) ∈ st.tokens ∨ ∃ r, q = p ++ "." ++ r) ∧
        ((q, w) ∈ (if isChildKey c && v.isObjTruthy then
            processNode v (childPath p c) st else st).typographyGroups →
          (q, w) ∈ st.typographyGroups ∨ ∃ r, q = p ++ "." ++ r) := by
      intro q w
      split
      · have hcp : childPath p c = p ++ "." ++ c := by rw [childPath, if_neg hp]
        constructor
        · intro hq
          rcases (hrec c v (List.mem_cons_self _ _) st).1 q w hq with h | h | ⟨r, h⟩
          · exact Or.inl h
          · exact Or.inr ⟨c, by rw [← hcp, h]⟩
          · refine Or.inr ⟨c ++ "." ++ r, ?_⟩
            rw [h, hcp]
            simp only [String.append_assoc]
        · intro hq
          rcases (hrec c v (List.mem_cons_self _ _) st).2 q w hq with h | h | ⟨r, h⟩
          · exact Or.inl h
          · exact Or.inr ⟨c, by rw [← hcp, h]⟩
          · refine Or.inr ⟨c ++ "." ++ r, ?_⟩
            rw [h, hcp]
            simp only [String.append_assoc]
      · exact ⟨fun hq => Or.inl hq, fun hq => Or.inl hq⟩
    constructor
    · intro q w hq
      rcases hrest.1 q w hq with h | h
      · exact (hstep q w).1 h
      · exact Or.inr h
    · intro q w hq
      rcases hrest.2 q w hq with h | h
      · exact (hstep q w).2 h
      · exact Or.inr h

lemma processElems_keys :
    ∀ (es : List JsVal) (i : ℕ) (p : String) (st : FlatState), p ≠ "" →
      (∀ (j : ℕ) (v : JsVal), v ∈ es → ∀ st1 : FlatState,
        (∀ q w, (q, w) ∈ (processNode v (childPath p (toString j)) st1).tokens →
          (q, w) ∈ st1.tokens ∨ q = childPath p (toString j) ∨
            ∃ r, q = childPath p (toString j) ++ "." ++ r) ∧
        (∀ q w, (q, w) ∈ (processNode v (childPath p (toString j)) st1).typographyGroups →
          (q, w) ∈ st1.typographyGroups ∨ q = childPath p (toString j) ∨
            ∃ r, q = childPath p (toString j) ++ "." ++ r)) →
      (∀ q w, (q, w) ∈ (processElems es i p st).tokens →
        (q, w) ∈ st.tokens ∨ ∃ r, q = p ++ "." ++ r) ∧
      (∀ q w, (q, w) ∈ (processElems es i p st).typographyGroups →
        (q, w) ∈ st.typographyGroups ∨ ∃ r, q = p ++ "." ++ r) := by
  intro es
  induction es with
  | nil =>
    intro i p st hp _
    exact ⟨fun q w hq => Or.inl hq, fun q w hq => Or.inl hq⟩
  | cons v rest ih =>
    intro i p st hp hrec
    rw [processElems]
    have hrest := ih (i + 1) p
      (if isChildKey (toString i) && v.isObjTruthy then
        processNode v (childPath p (toString i)) st else st)
      hp (fun j v1 h1 => hrec j v1 (List.mem_cons_of_mem _ h1))
    have hstep : ∀ q w,
        ((q, w) ∈ (if isChildKey (toString i) && v.isObjTruthy then
            processNode v (childPath p (toString i)) st else st).tokens →
          (q, w) ∈ st.tokens ∨ ∃ r, q = p ++ "." ++ r) ∧
        ((q, w) ∈ (if isChildKey (toString i) && v.isObjTruthy then
            processNode v (childPath p (toString i)) st else st).typographyGroups →
          (q, w) ∈ st.typographyGroups ∨ ∃ r, q = p ++ "." ++ r) := by
      intro q w
      split
      · have hcp : childPath p (toString i) = p ++ "." ++ toString i := by
          rw [childPath, if_neg hp]
        constructor
        · intro hq
          rcases (hrec i v (List.mem_cons_self _ _) st).1 q w hq with h | h | ⟨r, h⟩
          · exact Or.inl h
          · exact Or.inr ⟨toString i, by rw [← hcp, h]⟩
          · refine Or.inr ⟨toString i ++ "." ++ r, ?_⟩
            rw [h, hcp]
            simp only [String.append_assoc]
        · intro hq
          rcases (hrec i v (List.mem_cons_self _ _) st).2 q w hq with h | h | ⟨r, h⟩
          · exact Or.inl h
          · exact Or.inr ⟨toString i, by rw [← hcp, h]⟩
          · refine Or.inr ⟨toString i ++ "." ++ r, ?_⟩
            rw [h, hcp]
            simp only [String.append_assoc]
      · exact ⟨fun hq => Or.inl hq, fun hq => Or.inl hq⟩
    constructor
    · intro q w hq
      rcases hrest.1 q w hq with h | h
      · exact (hstep q w).1 h
      · exact Or.inr h
    · intro q w hq
      rcases hrest.2 q w hq with h | h
      · exact (hstep q w).2 h
      · exact Or.inr h

lemma processNode_keys_aux :
    ∀ n : ℕ, ∀ node : JsVal, sizeOf node ≤ n → ∀ (p : String) (st : FlatState),
      p ≠ "" →
      (∀ q w, (q, w) ∈ (processNode node p st).tokens →
        (q, w) ∈ st.tokens ∨ q = p ∨ ∃ r, q = p ++ "." ++ r) ∧
      (∀ q w, (q, w) ∈ (processNode node p st).typographyGroups →
        (q, w) ∈ st.typographyGroups ∨ q = p ∨ ∃ r, q = p ++ "." ++ r) := by
  intro n
  induction n with
  | zero =>
    intro t ht
    exfalso
    have hpos : 0 < sizeOf t := by
      cases t <;>
        simp only [JsVal.obj.sizeOf_spec, JsVal.arr.sizeOf_spec, JsVal.str.sizeOf_spec,
          JsVal.num.sizeOf_spec, JsVal.bool.sizeOf_spec, JsVal.null.sizeOf_spec,
          JsVal.undef.sizeOf_spec] <;> omega
    omega
  | succ n ih =>
    intro node hsz p st hp
    rw [processNode_spec]
    dsimp only
    split
    · -- token branch: the state is either unchanged or extended at key p
      split <;>
      · split
        · exact ⟨fun q w hq => Or.inl hq, fun q w hq => Or.inl hq⟩
        · constructor
          · intro q w hq
            dsimp only at hq
            rcases mem_upsert hq with h | h
            · exact Or.inr (Or.inl (congrArg Prod.fst h))
            · exact Or.inl h
          · exact fun q w hq => Or.inl hq
    · have hkidsF : ∀ fs : List (String × JsVal), node = JsVal.obj fs →
          (∀ c v, (c, v) ∈ fs → ∀ st1 : FlatState,
            (∀ q w, (q, w) ∈ (processNode v (childPath p c) st1).tokens →
              (q, w) ∈ st1.tokens ∨ q = childPath p c ∨
                ∃ r, q = childPath p c ++ "." ++ r) ∧
            (∀ q w, (q, w) ∈ (processNode v (childPath p c) st1).typographyGroups →
              (q, w) ∈ st1.typographyGroups ∨ q = childPath p c ∨
                ∃ r, q = childPath p c ++ "." ++ r)) := by
        intro fs hfs c v hm st1
        have hlt := sizeOf_lt_of_mem_objFields hm
        rw [← hfs] at hlt
        exact ih v (by omega) (childPath p c) st1 (childPath_ne_empty p c hp)
      have hkidsE : ∀ es : List JsVal, node = JsVal.arr es →
          (∀ (j : ℕ) (v : JsVal), v ∈ es → ∀ st1 : FlatState,
            (∀ q w, (q, w) ∈ (processNode v (childPath p (toString j)) st1).tokens →
              (q, w) ∈ st1.tokens ∨ q = childPath p (toString j) ∨
                ∃ r, q = childPath p (toString j) ++ "." ++ r) ∧
            (∀ q w, (q, w) ∈
                (processNode v (childPath p (toString j)) st1).typographyGroups →
              (q, w) ∈ st1.typographyGroups ∨ q = childPath p (toString j) ∨
                ∃ r, q = childPath p (toString j) ++ "." ++ r)) := by
        intro es hes j v hm st1
        have hlt := sizeOf_lt_of_mem_arrElems hm
        rw [← hes] at hlt
        exact ih v (by omega) (childPath p (toString j)) st1
          (childPath_ne_empty p (toString j) hp)
      split
      · -- typography-group branch
        cases node with
        | obj fs =>
          have hres := processFields_keys fs p
            { st with typographyGroups := upsert st.typographyGroups p (JsVal.obj fs) }
            hp (hkidsF fs rfl)
          constructor
          · intro q w hq
            rcases hres.1 q w hq with h | h
            · exact Or.inl h
            · exact Or.inr (Or.inr h)
          · intro q w hq
            rcases hres.2 q w hq with h | h
            · dsimp only at h
              rcases mem_upsert h with h1 | h1
              · exact Or.inr (Or.inl (congrArg Prod.fst h1))
              · exact Or.inl h1
            · exact Or.inr (Or.inr h)
        | arr es =>
          have hres := processElems_keys es 0 p
            { st with typographyGroups := upsert st.typographyGroups p (JsVal.arr es) }
            hp (hkidsE es rfl)
          constructor
          · intro q w hq
            rcases hres.1 q w hq with h | h
            · exact Or.inl h
            · exact Or.inr (Or.inr h)
          · intro q w hq
            rcases hres.2 q w hq with h | h
            · dsimp only at h
              rcases mem_upsert h with h1 | h1
              · exact Or.inr (Or.inl (congrArg Prod.fst h1))
              · exact Or.inl h1
            · exact Or.inr (Or.inr h)
        | str s =>
          constructor
          · intro q w hq
            dsimp only at hq
            exact Or.inl hq
          · intro q w hq
            dsimp only at hq
            rcases mem_upsert hq with h1 | h1
            · exact Or.inr (Or.inl (congrArg Prod.fst h1))
            · exact Or.inl h1
        | num m =>
          constructor
          · intro q w hq
            dsimp only at hq
            exact Or.inl hq
          · intro q w hq
            dsimp only at hq
            rcases mem_upsert hq with h1 | h1
            · exact Or.inr (Or.inl (congrArg Prod.fst h1))
            · exact Or.inl h1
        | bool b =>
          constructor
          · intro q w hq
            dsimp only at hq
            exact Or.inl hq
          · intro q w hq
            dsimp only at hq
            rcases mem_upsert hq with h1 | h1
            · exact Or.inr (Or.inl (congrArg Prod.fst h1))
            · exact Or.inl h1
        | null =>
          constructor
          · intro q w hq
            dsimp only at hq
            exact Or.inl hq
          · intro q w hq
            dsimp only at hq
            rcases mem_upsert hq with h1 | h1
            · exact Or.inr (Or.inl (congrArg Prod.fst h1))
            · exact Or.inl h1
        | undef =>
          constructor
          · intro q w hq
            dsimp only at hq
            exact Or.inl hq
          · intro q w hq
            dsimp only at hq
            rcases mem_upsert hq with h1 | h1
            · exact Or.inr (Or.inl (congrArg Prod.fst h1))
            · exact Or.inl h1
      · -- plain group branch
        cases node with
        | obj fs =>
          have hres := processFields_keys fs p st hp (hkidsF fs rfl)
          exact ⟨fun q w hq => (hres.1 q w hq).imp id Or.inr,
                 fun q w hq => (hres.2 q w hq).imp id Or.inr⟩
        | arr es =>
          have hres := processElems_keys es 0 p st hp (hkidsE es rfl)
          exact ⟨fun q w hq => (hres.1 q w hq).imp id Or.inr,
                 fun q w hq => (hres.2 q w hq).imp id Or.inr⟩
        | str s => exact ⟨fun q w hq => Or.inl hq, fun q w hq => Or.inl hq⟩
        | num m => exact ⟨fun q w hq => Or.inl hq, fun q w hq => Or.inl hq⟩
        | bool b => exact ⟨fun q w hq => Or.inl hq, fun q w hq => Or.inl hq⟩
        | null => exact ⟨fun q w hq => Or.inl hq, fun q w hq => Or.inl hq⟩
        | undef => exact ⟨fun q w hq => Or.inl hq, fun q w hq => Or.inl hq⟩

lemma composeFold_keys :
    ∀ (gps toks : List (String × JsVal)) (p : String × JsVal),
      p ∈ gps.foldl composeGroupStep toks →
      p ∈ toks ∨ ∃ g ∈ gps, p.1 = g.1 := by
  intro gps
  induction gps with
  | nil => intro toks p hq; exact Or.inl hq
  | cons gp rest ih =>
    intro toks p hq
    rw [List.foldl_cons] at hq
    rcases ih _ p hq with h | ⟨g, hg, hgq⟩
    · rw [composeGroupStep] at h
      rcases hcomp : composeTypographyGroup gp.2
        (gp.2.entriesOf.foldl
          (fun tmp x =>
            if !(startsWithDollar x.1) && x.2.isObjTruthy &&
                (x.2.getField "$type").isSome then
              upsert tmp (childPath gp.1 x.1) x.2
            else tmp)
          toks) gp.1 with hnone | hsome
      · rw [hcomp] at h
        exact Or.inl h
      · rw [hcomp] at h
        obtain ⟨q, v⟩ := p
        rcases mem_upsert h with h1 | h1
        · exact Or.inr ⟨gp, List.mem_cons_self _ _, by rw [h1]⟩
        · exact Or.inl h1
    · exact Or.inr ⟨g, List.mem_cons_of_mem _ hg, hgq⟩

lemma isTypographyGroupAux_requires :
    ∀ (entries : List (String × JsVal)) (hf hs ha : Bool),
      isTypographyGroupAux entries hf hs ha = true →
      (hf = true ∨ ∃ v, ("fontFamily", v) ∈ entries) ∧
      (hs = true ∨ ∃ v, ("fontSize", v) ∈ entries) := by
  intro entries
  induction entries with
  | nil =>
    intro hf hs ha h
    rw [isTypographyGroupAux] at h
    simp only [Bool.and_eq_true] at h
    exact ⟨Or.inl h.1.2, Or.inl h.2⟩
  | cons x rest ih =>
    intro hf hs ha h
    obtain ⟨k, v⟩ := x
    rw [isTypographyGroupAux] at h
    split at h
    · rcases ih hf hs ha h with ⟨h1, h2⟩
      refine ⟨h1.imp id ?_, h2.imp id ?_⟩
      · exact fun ⟨w, hw⟩ => ⟨w, List.mem_cons_of_mem _ hw⟩
      · exact fun ⟨w, hw⟩ => ⟨w, List.mem_cons_of_mem _ hw⟩
    · split at h
      · cases h
      · split at h
        · cases h
        · dsimp only at h
          split at h
          · split at h
            · split at h
              · rcases ih _ _ _ h with ⟨h1, h2⟩
                constructor
                · rcases h1 with h1 | ⟨w, hw⟩
                  · simp only [Bool.or_eq_true] at h1
                    rcases h1 with h1 | h1
                    · exact Or.inl h1
                    · have hk : k = "fontFamily" := eq_of_beq h1
                      subst hk
                      exact Or.inr ⟨v, List.mem_cons_self _ _⟩
                  · exact Or.inr ⟨w, List.mem_cons_of_mem _ hw⟩
                · rcases h2 with h2 | ⟨w, hw⟩
                  · simp only [Bool.or_eq_true] at h2
                    rcases h2 with h2 | h2
                    · exact Or.inl h2
                    · have hk : k = "fontSize" := eq_of_beq h2
                      subst hk
                      exact Or.inr ⟨v, List.mem_cons_self _ _⟩
                  · exact Or.inr ⟨w, List.mem_cons_of_mem _ hw⟩
              · cases h
            · cases h
          · cases h

/-- A two-property typography group document: a `fontFamily` token and a
`fontSize` token (the latter with a configurable `$type`). -/
def typoGroupDoc (fam tyS sz : String) : JsVal :=
  JsVal.obj
    [("fontFamily", JsVal.obj [("$type", JsVal.str "fontFamily"),
        ("$value", JsVal.str fam)]),
     ("fontSize", JsVal.obj [("$type", JsVal.str tyS),
        ("$value", JsVal.str sz)])]

/-- The synthetic token the flattener composes for `typoGroupDoc`. -/
def typoComposed (fam : String) (d : SpacingValue) : JsVal :=
  JsVal.obj [("$type", JsVal.str "typography"),
    ("$value", JsVal.obj [("fontFamily", JsVal.str fam),
                          ("fontSize", spacingToJs d)])]

lemma token_test_false {node : JsVal}
    (hgt : ∀ s, node.getField "$type" ≠ some (JsVal.str s)) :
    (match node.getField "$type" with
     | some (JsVal.str _) => true
     | _ => false) = false := by
  cases hgf : node.getField "$type" with
  | none => rfl
  | some v =>
    cases v with
    | str s => exact absurd hgf (hgt s)
    | num n => rfl
    | bool b => rfl
    | obj fs => rfl
    | arr es => rfl
    | null => rfl
    | undef => rfl

lemma isTypographyGroup_false_of_missing {group : JsVal}
    (h : (∀ v, ("fontFamily", v) ∉ group.entriesOf) ∨
         (∀ v, ("fontSize", v) ∉ group.entriesOf)) :
    isTypographyGroup group = false := by
  cases hg : isTypographyGroup group
  · rfl
  · exfalso
    rcases isTypographyGroupAux_requires group.entriesOf false false false hg
      with ⟨h1, h2⟩
    rcases h with h | h
    · rcases h1 with h1 | ⟨w, hw⟩
      · cases h1
      · exact h w hw
    · rcases h2 with h2 | ⟨w, hw⟩
      · cases h2
      · exact h w hw

lemma normalizeDTCG_concrete (s ty p0 : String) (tt : List (String × JsVal))
    (hal : parseAliasReference s = none) :
    normalizeDTCGTokenValue (JsVal.str s) ty p0 tt =
      match parseDTCGValue (JsVal.str s) ty with
      | none => none
      | some pl => some (TokenValueOrAlias.value pl) := by
  have hstep : normalizeDTCGTokenValue (JsVal.str s) ty p0 tt =
      match parseAliasReference s with
      | some ref =>
        if ref ≠ "" then
          if (alookup tt ref).isSome then some (TokenValueOrAlias.alias ref)
          else none
        else
          match parseDTCGValue (JsVal.str s) ty with
          | none => none
          | some pl => some (TokenValueOrAlias.value pl)
      | none =>
        match parseDTCGValue (JsVal.str s) ty with
        | none => none
        | some pl => some (TokenValueOrAlias.value pl) := rfl
  rw [hstep, hal]

lemma composeStep_fontFamily (tt : List (String × JsVal)) (p : String)
    (typ : List (String × JsVal)) (fam : String)
    (hfamAl : parseAliasReference fam = none) :
    composeStep tt p typ ("fontFamily",
      JsVal.obj [("$type", JsVal.str "fontFamily"), ("$value", JsVal.str fam)]) =
      upsert typ "fontFamily" (JsVal.str fam) := by
  have hstep : composeStep tt p typ ("fontFamily",
      JsVal.obj [("$type", JsVal.str "fontFamily"), ("$value", JsVal.str fam)]) =
      match normalizeDTCGTokenValue (JsVal.str fam) "fontFamily"
          (childPath p "fontFamily") tt with
      | some (TokenValueOrAlias.value payload) =>
        composeAssign typ "fontFamily" "fontFamily" payload
      | _ => typ := rfl
  rw [hstep, normalizeDTCG_concrete _ _ _ _ hfamAl]
  rfl

lemma composeStep_fontSize (tt : List (String × JsVal)) (p : String)
    (typ : List (String × JsVal)) (sz tyS : String) (d : SpacingValue)
    (hszAl : parseAliasReference sz = none)
    (hty : tyS = "fontSize" ∨ tyS = "dimension")
    (hdim : parseDimension (JsVal.str sz) = some d) :
    composeStep tt p typ ("fontSize",
      JsVal.obj [("$type", JsVal.str tyS), ("$value", JsVal.str sz)]) =
      upsert typ "fontSize" (spacingToJs d) := by
  have htyne : tyS ≠ "" := by rcases hty with rfl | rfl <;> decide
  have hstep : composeStep tt p typ ("fontSize",
      JsVal.obj [("$type", JsVal.str tyS), ("$value", JsVal.str sz)]) =
      if tyS ≠ "" then
        match normalizeDTCGTokenValue (JsVal.str sz) tyS
            (childPath p "fontSize") tt with
        | some (TokenValueOrAlias.value payload) =>
          composeAssign typ "fontSize" tyS payload
        | _ => typ
      else typ := rfl
  rw [hstep, if_pos htyne, normalizeDTCG_concrete _ _ _ _ hszAl]
  rcases hty with rfl | rfl
  · rw [show parseDTCGValue (JsVal.str sz) "fontSize" =
        (parseDimension (JsVal.str sz)).map TokenPayload.dim from rfl, hdim]
    rfl
  · rw [show parseDTCGValue (JsVal.str sz) "dimension" =
        (parseDimension (JsVal.str sz)).map TokenPayload.dim from rfl, hdim]
    rfl

lemma composeTypographyGroup_eval (k fam sz tyS : String) (d : SpacingValue)
    (tt : List (String × JsVal))
    (hfam : fam ≠ "") (hfamAl : parseAliasReference fam = none)
    (hszAl : parseAliasReference sz = none)
    (hty : tyS = "fontSize" ∨ tyS = "dimension")
    (hdim : parseDimension (JsVal.str sz) = some d) :
    composeTypographyGroup (typoGroupDoc fam tyS sz) tt k =
      some (JsVal.obj [("fontFamily", JsVal.str fam),
                       ("fontSize", spacingToJs d)]) := by
  have hbody : composeTypographyGroup (typoGroupDoc fam tyS sz) tt k =
      (fun fields : List (String × JsVal) =>
        if ((match alookup fields "fontFamily" with
             | some fv => fv.truthy
             | none => false) &&
            (match alookup fields "fontSize" with
             | some fv => fv.truthy
             | none => false)) then some (JsVal.obj fields) else none)
        ((typoGroupDoc fam tyS sz).entriesOf.foldl (composeStep tt k) []) := rfl
  have hfields : (typoGroupDoc fam tyS sz).entriesOf.foldl (composeStep tt k) [] =
      [("fontFamily", JsVal.str fam), ("fontSize", spacingToJs d)] := by
    rw [show (typoGroupDoc fam tyS sz).entriesOf =
        [("fontFamily", JsVal.obj [("$type", JsVal.str "fontFamily"),
            ("$value", JsVal.str fam)]),
         ("fontSize", JsVal.obj [("$type", JsVal.str tyS),
            ("$value", JsVal.str sz)])] from rfl,
      List.foldl_cons, composeStep_fontFamily tt k [] fam hfamAl,
      List.foldl_cons, composeStep_fontSize tt k _ sz tyS d hszAl hty hdim,
      List.foldl_nil]
    rfl
  rw [hbody, hfields]
  have htr : JsVal.truthy (JsVal.str fam) = true := by
    rw [show JsVal.truthy (JsVal.str fam) = !(fam == "") from rfl]
    simp [hfam]
  dsimp only
  rw [show (alookup [("fontFamily", JsVal.str fam), ("fontSize", spacingToJs d)]
      "fontFamily") = some (JsVal.str fam) from rfl]
  rw [show (alookup [("fontFamily", JsVal.str fam), ("fontSize", spacingToJs d)]
      "fontSize") = some (spacingToJs d) from rfl]
  dsimp only
  rw [htr]
  rfl

lemma processNode_typoGroup (k fam sz tyS : String)
    (hk : k ≠ "") (hty : tyS = "fontSize" ∨ tyS = "dimension") :
    processNode (typoGroupDoc fam tyS sz) k ⟨[], []⟩ =
      ⟨[], [(k, typoGroupDoc fam tyS sz)]⟩ := by
  have hnottok : (match JsVal.getField (typoGroupDoc fam tyS sz) "$type" with
      | some (JsVal.str _) => true
      | _ => false) = false := rfl
  have hgrp : isTypographyGroup (typoGroupDoc fam tyS sz) = true := by
    rcases hty with rfl | rfl <;> rfl
  rw [processNode_spec, if_neg (fun h => Bool.false_ne_true (hnottok ▸ h)),
    if_pos hgrp]
  show processFields
    [("fontFamily", JsVal.obj [("$type", JsVal.str "fontFamily"),
        ("$value", JsVal.str fam)]),
     ("fontSize", JsVal.obj [("$type", JsVal.str tyS),
        ("$value", JsVal.str sz)])] k
    ⟨[], [(k, typoGroupDoc fam tyS sz)]⟩ = ⟨[], [(k, typoGroupDoc fam tyS sz)]⟩
  have hreg : (alookup ([(k, typoGroupDoc fam tyS sz)] :
      List (String × JsVal)) k).isSome = true := by
    rw [alookup_cons_self]
    rfl
  rw [processFields,
    if_pos (show (isChildKey "fontFamily" &&
      JsVal.isObjTruthy (JsVal.obj [("$type", JsVal.str "fontFamily"),
        ("$value", JsVal.str fam)])) = true from rfl),
    processNode_skip_typprop (show (JsVal.obj [("$type", JsVal.str "fontFamily"),
        ("$value", JsVal.str fam)]).getField "$type" =
        some (JsVal.str "fontFamily") from rfl) k "fontFamily" hk rfl rfl _ hreg,
    processFields,
    if_pos (show (isChildKey "fontSize" &&
      JsVal.isObjTruthy (JsVal.obj [("$type", JsVal.str tyS),
        ("$value", JsVal.str sz)])) = true from rfl),
    processNode_skip_typprop (show (JsVal.obj [("$type", JsVal.str tyS),
        ("$value", JsVal.str sz)]).getField "$type" =
        some (JsVal.str tyS) from rfl) k "fontSize" hk rfl rfl _ hreg,
    processFields]

lemma flatten_typo_partA (k fam sz tyS : String) (d : SpacingValue)
    (hk : k ≠ "") (hk2 : k ≠ "$schema") (hfam : fam ≠ "")
    (hfamAl : parseAliasReference fam = none)
    (hszAl : parseAliasReference sz = none)
    (hty : tyS = "fontSize" ∨ tyS = "dimension")
    (hdim : parseDimension (JsVal.str sz) = some d) :
    flattenDTCGTokens (JsVal.obj [(k, typoGroupDoc fam tyS sz)]) =
      [(k, typoComposed fam d)] := by
  have hflat : flattenDTCGTokens (JsVal.obj [(k, typoGroupDoc fam tyS sz)]) =
      (((JsVal.obj [(k, typoGroupDoc fam tyS sz)]).entriesOf.foldl
        (fun acc p =>
          if p.1 != "$schema" && p.2.isObjTruthy then
            processNode p.2 (childPath "" p.1) acc
          else acc)
        { tokens := [], typographyGroups := [] }).typographyGroups).foldl
        composeGroupStep
      (((JsVal.obj [(k, typoGroupDoc fam tyS sz)]).entriesOf.foldl
        (fun acc p =>
          if p.1 != "$schema" && p.2.isObjTruthy then
            processNode p.2 (childPath "" p.1) acc
          else acc)
        { tokens := [], typographyGroups := [] }).tokens) := rfl
  have hguard : (k != "$schema" &&
      JsVal.isObjTruthy (typoGroupDoc fam tyS sz)) = true := by
    rw [show JsVal.isObjTruthy (typoGroupDoc fam tyS sz) = true from rfl,
      Bool.and_true, bne_iff_ne]
    exact hk2
  have hst0 : (JsVal.obj [(k, typoGroupDoc fam tyS sz)]).entriesOf.foldl
      (fun acc p =>
        if p.1 != "$schema" && p.2.isObjTruthy then
          processNode p.2 (childPath "" p.1) acc
        else acc)
      { tokens := [], typographyGroups := [] } =
      (⟨[], [(k, typoGroupDoc fam tyS sz)]⟩ : FlatState) := by
    rw [show (JsVal.obj [(k, typoGroupDoc fam tyS sz)]).entriesOf =
        [(k, typoGroupDoc fam tyS sz)] from rfl, List.foldl_cons, List.foldl_nil]
    dsimp only
    rw [if_pos hguard, show childPath "" k = k from rfl,
      processNode_typoGroup k fam sz tyS hk hty]
  rw [hflat, hst0]
  dsimp only
  rw [List.foldl_cons, List.foldl_nil]
  have hcgs : composeGroupStep [] (k, typoGroupDoc fam tyS sz) =
      match composeTypographyGroup (typoGroupDoc fam tyS sz)
          ((typoGroupDoc fam tyS sz).entriesOf.foldl
            (fun tmp x =>
              if !(startsWithDollar x.1) && x.2.isObjTruthy &&
                  (x.2.getField "$type").isSome then
                upsert tmp (childPath k x.1) x.2
              else tmp)
            []) k with
      | some composed =>
        upsert [] k
          (JsVal.obj [("$type", JsVal.str "typography"), ("$value", composed)])
      | none => [] := rfl
  rw [hcgs, composeTypographyGroup_eval k fam sz tyS d _ hfam hfamAl hszAl hty hdim]
  rfl

lemma flatten_typo_partB (k : String) (group : JsVal) (hk : k ≠ "")
    (hgt : ∀ s, group.getField "$type" ≠ some (JsVal.str s))
    (hmiss : (∀ v, ("fontFamily", v) ∉ group.entriesOf) ∨
             (∀ v, ("fontSize", v) ∉ group.entriesOf)) :
    alookup (flattenDTCGTokens (JsVal.obj [(k, group)])) k = none := by
  have hflat : flattenDTCGTokens (JsVal.obj [(k, group)]) =
      (((JsVal.obj [(k, group)]).entriesOf.foldl
        (fun acc p =>
          if p.1 != "$schema" && p.2.isObjTruthy then
            processNode p.2 (childPath "" p.1) acc
          else acc)
        { tokens := [], typographyGroups := [] }).typographyGroups).foldl
        composeGroupStep
      (((JsVal.obj [(k, group)]).entriesOf.foldl
        (fun acc p =>
          if p.1 != "$schema" && p.2.isObjTruthy then
            processNode p.2 (childPath "" p.1) acc
          else acc)
        { tokens := [], typographyGroups := [] }).tokens) := rfl
  rw [hflat, show (JsVal.obj [(k, group)]).entriesOf = [(k, group)] from rfl,
    List.foldl_cons, List.foldl_nil]
  dsimp only
  by_cases hguard : (k != "$schema" && group.isObjTruthy) = true
  · rw [if_pos hguard, show childPath "" k = k from rfl]
    -- the node is neither a token nor a typography group: it only recurses
    have hgrp : isTypographyGroup group = false :=
      isTypographyGroup_false_of_missing hmiss
    have hnode : processNode group k (⟨[], []⟩ : FlatState) =
        match group with
        | JsVal.obj fs => processFields fs k ⟨[], []⟩
        | JsVal.arr es => processElems es 0 k ⟨[], []⟩
        | _ => (⟨[], []⟩ : FlatState) := by
      rw [processNode_spec,
        if_neg (fun h => Bool.false_ne_true ((token_test_false hgt) ▸ h)),
        if_neg (fun h => Bool.false_ne_true (hgrp ▸ h))]
    have hext : (∀ q w, (q, w) ∈ (processNode group k
          (⟨[], []⟩ : FlatState)).tokens → ∃ r, q = k ++ "." ++ r) ∧
        (∀ q w, (q, w) ∈ (processNode group k
          (⟨[], []⟩ : FlatState)).typographyGroups → ∃ r, q = k ++ "." ++ r) := by
      rw [hnode]
      cases group with
      | obj fs =>
        have hres := processFields_keys fs k ⟨[], []⟩ hk
          (fun c v hm st1 => processNode_keys_aux (sizeOf v) v le_rfl
            (childPath k c) st1 (childPath_ne_empty k c hk))
        constructor
        · intro q w hq
          rcases hres.1 q w hq with h | h
          · cases h
          · exact h
        · intro q w hq
          rcases hres.2 q w hq with h | h
          · cases h
          · exact h
      | arr es =>
        have hres := processElems_keys es 0 k ⟨[], []⟩ hk
          (fun j v hm st1 => processNode_keys_aux (sizeOf v) v le_rfl
            (childPath k (toString j)) st1 (childPath_ne_empty k (toString j) hk))
        constructor
        · intro q w hq
          rcases hres.1 q w hq with h | h
          · cases h
          · exact h
        · intro q w hq
          rcases hres.2 q w hq with h | h
          · cases h
          · exact h
      | str s => exact ⟨fun q w hq => absurd hq (List.not_mem_nil _),
                        fun q w hq => absurd hq (List.not_mem_nil _)⟩
      | num n => exact ⟨fun q w hq => absurd hq (List.not_mem_nil _),
                        fun q w hq => absurd hq (List.not_mem_nil _)⟩
      | bool b => exact ⟨fun q w hq => absurd hq (List.not_mem_nil _),
                         fun q w hq => absurd hq (List.not_mem_nil _)⟩
      | null => exact ⟨fun q w hq => absurd hq (List.not_mem_nil _),
                       fun q w hq => absurd hq (List.not_mem_nil _)⟩
      | undef => exact ⟨fun q w hq => absurd hq (List.not_mem_nil _),
                        fun q w hq => absurd hq (List.not_mem_nil _)⟩
    apply alookup_none_of_forall
    intro p hp
    rcases composeFold_keys _ _ p hp with h | ⟨g, hg, hgq⟩
    · have hpp : (p.1, p.2) ∈ (processNode group k
          (⟨[], []⟩ : FlatState)).tokens := by
        rw [Prod.mk.eta]
        exact h
      obtain ⟨r, hr⟩ := hext.1 p.1 p.2 hpp
      rw [hr]
      exact ext_ne_parent k r
    · have hpg : (g.1, g.2) ∈ (processNode group k
          (⟨[], []⟩ : FlatState)).typographyGroups := by
        rw [Prod.mk.eta]
        exact hg
      obtain ⟨r, hr⟩ := hext.2 g.1 g.2 hpg
      rw [hgq, hr]
      exact ext_ne_parent k r
  · rw [if_neg hguard]
    rfl

/-- C3: a group whose non-`$` children are exactly a `fontFamily` token and a
`fontSize` token with composable concrete values is flattened to exactly one
synthetic `$type: typography` token at the group's path (the property tokens
themselves are suppressed); a non-token group lacking a `fontFamily` child or
lacking a `fontSize` child contributes no token at its path at all. -/
theorem flattenDTCG_typography_composition :
    (∀ (k fam sz tyS : String) (d : SpacingValue),
      k ≠ "" → k ≠ "$schema" → fam ≠ "" →
      parseAliasReference fam = none → parseAliasReference sz = none →
      (tyS = "fontSize" ∨ tyS = "dimension") →
      parseDimension (JsVal.str sz) = some d →
      flattenDTCGTokens (JsVal.obj [(k, typoGroupDoc fam tyS sz)]) =
        [(k, typoComposed fam d)]) ∧
    (∀ (k : String) (group : JsVal), k ≠ "" →
      (∀ s, group.getField "$type" ≠ some (JsVal.str s)) →
      ((∀ v, ("fontFamily", v) ∉ group.entriesOf) ∨
       (∀ v, ("fontSize", v) ∉ group.entriesOf)) →
      alookup (flattenDTCGTokens (JsVal.obj [(k, group)])) k = none) :=
  ⟨fun k fam sz tyS d hk hk2 hfam hfamAl hszAl hty hdim =>
    flatten_typo_partA k fam sz tyS d hk hk2 hfam hfamAl hszAl hty hdim,
   fun k group hk hgt hmiss => flatten_typo_partB k group hk hgt hmiss⟩

/-- C3 witness: composing a concrete heading group with `Inter` at `16px`. -/
theorem flattenDTCG_typography_composition_witness :
    flattenDTCGTokens (JsVal.obj [("heading", typoGroupDoc "Inter" "dimension" "16px")]) =
      [("heading", typoComposed "Inter" ⟨JNum.fin (mkRat 16 1), "px"⟩)] :=
  flattenDTCG_typography_composition.1 "heading" "Inter" "16px" "dimension"
    ⟨JNum.fin (mkRat 16 1), "px"⟩ (by decide) (by decide) (by decide)
    (by rfl) (by rfl) (Or.inr rfl) (by rfl)

/-! ### C4: the alias graph and the cycle detector -/

/-- The functional alias graph of the claim: an edge from a token name to the
alias reference of its primary value. -/
def aliasNext (tokens : List (String × NormalizedToken)) (n : String) :
    Option String :=
  match alookup tokens n with
  | some tok =>
    match tok.value with
    | TokenValueOrAlias.alias r => some r
    | _ => none
  | none => none

/-- `k`-fold edge following in the alias graph. -/
def aliasIter (tokens : List (String × NormalizedToken)) : ℕ → String → Option String
  | 0, n => some n
  | k + 1, n =>
    match aliasNext tokens n with
    | some m => aliasIter tokens k m
    | none => none

/-- A name lying on a directed cycle of the alias graph. -/
def OnCycle (tokens : List (String × NormalizedToken)) (n : String) : Prop :=
  ∃ k, 0 < k ∧ aliasIter tokens k n = some n

/-- The alias graph contains a directed cycle. -/
def HasCycle (tokens : List (String × NormalizedToken)) : Prop :=
  ∃ n, OnCycle tokens n

lemma aliasIter_add (tokens : List (String × NormalizedToken)) :
    ∀ (a b : ℕ) (n : String),
      aliasIter tokens (a + b) n =
        match aliasIter tokens a n with
        | some m => aliasIter tokens b m
        | none => none := by
  intro a
  induction a with
  | zero =>
    intro b n
    rw [Nat.zero_add]
    rfl
  | succ a ih =>
    intro b n
    rw [Nat.succ_add]
    show (match aliasNext tokens n with
          | some m => aliasIter tokens (a + b) m
          | none => none) =
         match (match aliasNext tokens n with
                | some m => aliasIter tokens a m
                | none => none) with
         | some m => aliasIter tokens b m
         | none => none
    cases hn : aliasNext tokens n with
    | none => rfl
    | some m => exact ih b m

lemma onCycle_rotate {tokens : List (String × NormalizedToken)} {n r : String}
    (h : OnCycle tokens n) (hr : aliasNext tokens n = some r) :
    OnCycle tokens r := by
  obtain ⟨k, hk, hit⟩ := h
  obtain ⟨k0, rfl⟩ : ∃ k0, k = k0 + 1 := ⟨k - 1, by omega⟩
  rw [aliasIter, hr] at hit
  dsimp only at hit
  have h1 : aliasIter tokens 1 n = some r := by
    show (match aliasNext tokens n with
          | some m => aliasIter tokens 0 m
          | none => none) = some r
    rw [hr]
    rfl
  refine ⟨k0 + 1, Nat.succ_pos _, ?_⟩
  rw [aliasIter_add tokens k0 1 r, hit]
  exact h1

lemma not_onCycle_of_missing {tokens : List (String × NormalizedToken)} {n : String}
    (h : alookup tokens n = none) : ¬ OnCycle tokens n := by
  rintro ⟨k, hk, hit⟩
  obtain ⟨k0, rfl⟩ : ∃ k0, k = k0 + 1 := ⟨k - 1, by omega⟩
  have hnone : aliasNext tokens n = none := by
    show (match alookup tokens n with
          | some tok =>
            match tok.value with
            | TokenValueOrAlias.alias r => some r
            | _ => none
          | none => none) = none
    rw [h]
  rw [aliasIter, hnone] at hit
  cases hit

lemma not_onCycle_of_value {tokens : List (String × NormalizedToken)} {n : String}
    {tok : NormalizedToken} {pl : TokenPayload}
    (h : alookup tokens n = some tok) (hv : tok.value = TokenValueOrAlias.value pl) :
    ¬ OnCycle tokens n := by
  rintro ⟨k, hk, hit⟩
  obtain ⟨k0, rfl⟩ : ∃ k0, k = k0 + 1 := ⟨k - 1, by omega⟩
  have hnone : aliasNext tokens n = none := by
    show (match alookup tokens n with
          | some tok =>
            match tok.value with
            | TokenValueOrAlias.alias r => some r
            | _ => none
          | none => none) = none
    rw [h]
    dsimp only
    rw [hv]
  rw [aliasIter, hnone] at hit
  cases hit

lemma aliasNext_of_alias {tokens : List (String × NormalizedToken)} {n r : String}
    {tok : NormalizedToken}
    (h : alookup tokens n = some tok) (hv : tok.value = TokenValueOrAlias.alias r) :
    aliasNext tokens n = some r := by
  show (match alookup tokens n with
        | some tok =>
          match tok.value with
          | TokenValueOrAlias.alias r => some r
          | _ => none
        | none => none) = some r
  rw [h]
  dsimp only
  rw [hv]

lemma chain_iter {tokens : List (String × NormalizedToken)} :
    ∀ (t : List String) (x b : String),
      List.Chain' (fun a c => aliasNext tokens a = some c) (x :: t) →
      (x :: t).getLast? = some b →
      aliasIter tokens t.length x = some b := by
  intro t
  induction t with
  | nil =>
    intro x b _ hlast
    exact hlast
  | cons y t ih =>
    intro x b hch hlast
    rw [List.chain'_cons] at hch
    rw [List.getLast?_cons_cons] at hlast
    show (match aliasNext tokens x with
          | some m => aliasIter tokens t.length m
          | none => none) = some b
    rw [hch.1]
    exact ih y b hch.2 hlast

lemma findIdx?_beq_spec :
    ∀ (l : List String) (n : String) (s i : ℕ),
      (List.findIdx? (fun x => x == n) l s) = some i →
      s ≤ i ∧ i - s < l.length ∧ (l.drop (i - s)).head? = some n := by
  intro l
  induction l with
  | nil => intro n s i h; cases h
  | cons x xs ih =>
    intro n s i h
    rw [List.findIdx?] at h
    split at h
    · have hi : s = i := Option.some.inj h
      subst hi
      have hx : x = n := by
        rename_i hx0
        exact eq_of_beq hx0
      subst hx
      refine ⟨le_rfl, by simp, ?_⟩
      rw [Nat.sub_self]
      rfl
    · obtain ⟨h1, h2, h3⟩ := ih n (s + 1) i h
      refine ⟨by omega, by simp; omega, ?_⟩
      have hdrop : i - s = (i - (s + 1)) + 1 := by omega
      rw [hdrop, List.drop_succ_cons]
      exact h3

lemma resolveRef_missing {tokens : List (String × NormalizedToken)} {name : String}
    (path : List String) (st : DetectState)
    (h : alookup tokens name = none) :
    resolveRef tokens name path st = (st, none) := by
  rw [resolveRef]
  split
  · rfl
  · next token heq =>
    rw [h] at heq
    cases heq

lemma resolveRef_cycleFound {tokens : List (String × NormalizedToken)}
    {name : String} {token : NormalizedToken} (path : List String) (st : DetectState)
    (htok : alookup tokens name = some token)
    (hvis : st.visiting.contains name = true) {i : ℕ}
    (hidx : List.findIdx? (fun x => x == name) path = some i) :
    resolveRef tokens name path st =
      ({ st with cycles := st.cycles ++ [path.drop i ++ [name]] }, none) := by
  rw [resolveRef]
  split
  · next heq =>
    rw [htok] at heq
    cases heq
  · next token2 heq =>
    rw [htok] at heq
    obtain rfl : token = token2 := Option.some.inj heq
    rw [dif_pos hvis, hidx]

lemma resolveRef_black {tokens : List (String × NormalizedToken)}
    {name : String} {token : NormalizedToken} (path : List String) (st : DetectState)
    (htok : alookup tokens name = some token)
    (hvis : ¬ st.visiting.contains name = true)
    (hbl : st.visited.contains name = true) :
    resolveRef tokens name path st = (st, some token.value) := by
  rw [resolveRef]
  split
  · next heq =>
    rw [htok] at heq
    cases heq
  · next token2 heq =>
    rw [htok] at heq
    obtain rfl : token = token2 := Option.some.inj heq
    rw [dif_neg hvis, dif_pos hbl]

lemma resolveRef_alias {tokens : List (String × NormalizedToken)}
    {name r : String} {token : NormalizedToken} (path : List String) (st : DetectState)
    (htok : alookup tokens name = some token)
    (hvis : ¬ st.visiting.contains name = true)
    (hbl : ¬ st.visited.contains name = true)
    (hval : token.value = TokenValueOrAlias.alias r) :
    resolveRef tokens name path st =
      ({ cycles := (resolveRef tokens r (path ++ [name])
            { cycles := st.cycles, visited := st.visited,
              visiting := name :: st.visiting }).1.cycles,
         visited := name :: (resolveRef tokens r (path ++ [name])
            { cycles := st.cycles, visited := st.visited,
              visiting := name :: st.visiting }).1.visited,
         visiting := ((resolveRef tokens r (path ++ [name])
            { cycles := st.cycles, visited := st.visited,
              visiting := name :: st.visiting }).1.visiting).erase name },
       some (match (resolveRef tokens r (path ++ [name])
            { cycles := st.cycles, visited := st.visited,
              visiting := name :: st.visiting }).2 with
         | some v => v
         | none => token.value)) := by
  rw [resolveRef]
  split
  · next heq =>
    rw [htok] at heq
    cases heq
  · next token2 heq =>
    rw [htok] at heq
    obtain rfl : token = token2 := Option.some.inj heq
    rw [dif_neg hvis, dif_neg hbl, hval]

lemma resolveRef_value {tokens : List (String × NormalizedToken)}
    {name : String} {token : NormalizedToken} {pl : TokenPayload}
    (path : List String) (st : DetectState)
    (htok : alookup tokens name = some token)
    (hvis : ¬ st.visiting.contains name = true)
    (hbl : ¬ st.visited.contains name = true)
    (hval : token.value = TokenValueOrAlias.value pl) :
    resolveRef tokens name path st =
      ({ cycles := st.cycles, visited := name :: st.visited,
         visiting := (name :: st.visiting).erase name },
       some (TokenValueOrAlias.value pl)) := by
  rw [resolveRef]
  split
  · next heq =>
    rw [htok] at heq
    cases heq
  · next token2 heq =>
    rw [htok] at heq
    obtain rfl : token = token2 := Option.some.inj heq
    rw [dif_neg hvis, dif_neg hbl, hval]

lemma resolveRef_main (tokens : List (String × NormalizedToken)) :
    ∀ (name : String) (path : List String) (st : DetectState),
      st.visiting = path.reverse →
      List.Chain' (fun a b => aliasNext tokens a = some b) (path ++ [name]) →
      (∀ m ∈ st.visited, OnCycle tokens m → st.cycles ≠ []) →
      (∃ ext, ((resolveRef tokens name path st).1).cycles = st.cycles ++ ext) ∧
      ((resolveRef tokens name path st).1).visiting = st.visiting ∧
      (∀ m ∈ ((resolveRef tokens name path st).1).visited,
        OnCycle tokens m → ((resolveRef tokens name path st).1).cycles ≠ []) ∧
      (OnCycle tokens name → ((resolveRef tokens name path st).1).cycles ≠ []) ∧
      (∀ c ∈ ((resolveRef tokens name path st).1).cycles,
        c ∈ st.cycles ∨ (c ≠ [] ∧ c.head? = c.getLast? ∧ HasCycle tokens)) := by
  intro name path st
  induction name, path, st using resolveRef.induct tokens with
  | case1 name path st htok =>
    intro hv hch hInv
    rw [resolveRef_missing path st htok]
    dsimp only
    refine ⟨⟨[], (List.append_nil _).symm⟩, rfl, hInv, ?_, fun c hc => Or.inl hc⟩
    intro hc
    exact absurd hc (not_onCycle_of_missing htok)
  | case2 name path st token htok h1 i hidx =>
    intro hv hch hInv
    rw [resolveRef_cycleFound path st htok h1 hidx]
    dsimp only
    have hspec := findIdx?_beq_spec path name 0 i hidx
    have hlt : i < path.length := by
      have := hspec.2.1
      omega
    have hhead : (path.drop i).head? = some name := by
      have := hspec.2.2
      rwa [Nat.sub_zero] at this
    obtain ⟨rest, hrest⟩ : ∃ rest, path.drop i = name :: rest := by
      cases hd : path.drop i with
      | nil => rw [hd] at hhead; cases hhead
      | cons a t =>
        rw [hd] at hhead
        exact ⟨t, by rw [Option.some.inj hhead]⟩
    have hchainc : List.Chain'
        (fun a b => aliasNext tokens a = some b) (path.drop i ++ [name]) := by
      have hsub : path.drop i ++ [name] = (path ++ [name]).drop i :=
        (List.drop_append_of_le_length (le_of_lt hlt)).symm
      rw [hsub]
      exact hch.suffix (List.drop_suffix i (path ++ [name]))
    have honc : OnCycle tokens name := by
      rw [hrest] at hchainc
      have hlast : (name :: (rest ++ [name])).getLast? = some name := by
        show ((name :: rest) ++ [name]).getLast? = some name
        exact List.getLast?_concat _
      exact ⟨(rest ++ [name]).length, by simp, chain_iter _ name name hchainc hlast⟩
    refine ⟨⟨[path.drop i ++ [name]], rfl⟩, rfl, ?_, ?_, ?_⟩
    · intro m hm hc
      simp
    · intro hc
      simp
    · intro c hc
      rcases List.mem_append.mp hc with h | h
      · exact Or.inl h
      · have hc2 : c = path.drop i ++ [name] := by simpa using h
        subst hc2
        refine Or.inr ⟨by simp, ?_, ⟨name, honc⟩⟩
        rw [hrest]
        rw [show ((name :: rest) ++ [name]).getLast? = some name from
          List.getLast?_concat _]
        rfl
  | case3 name path st token htok h1 hidx =>
    intro hv hch hInv
    exfalso
    have hmem : name ∈ path := by
      have h1m : name ∈ st.visiting := List.elem_iff.mp h1
      rw [hv] at h1m
      exact List.mem_reverse.mp h1m
    have := (List.findIdx?_eq_none_iff.mp hidx) name hmem
    simp at this
  | case4 name path st token htok h1 h2 =>
    intro hv hch hInv
    rw [resolveRef_black path st htok h1 h2]
    dsimp only
    refine ⟨⟨[], (List.append_nil _).symm⟩, rfl, hInv, ?_, fun c hc => Or.inl hc⟩
    intro hc
    exact hInv name (List.elem_iff.mp h2) hc
  | case5 name path st token htok h1 h2 r hval ih =>
    intro hv hch hInv
    have hv1 : name :: st.visiting = (path ++ [name]).reverse := by
      rw [hv, List.reverse_append]
      rfl
    have hRnr : aliasNext tokens name = some r := aliasNext_of_alias htok hval
    have hch1 : List.Chain' (fun a b => aliasNext tokens a = some b)
        ((path ++ [name]) ++ [r]) := by
      rw [List.chain'_append]
      refine ⟨hch, List.chain'_singleton _, ?_⟩
      intro x hx y hy
      rw [List.getLast?_concat] at hx
      obtain rfl : name = x := Option.some.inj hx
      obtain rfl : r = y := Option.some.inj hy
      exact hRnr
    obtain ⟨⟨ext, hext⟩, hvis, hIv, hC, hclose⟩ := ih hv1 hch1 hInv
    rw [resolveRef_alias path st htok h1 h2 hval]
    dsimp only
    refine ⟨⟨ext, hext⟩, ?_, ?_, ?_, hclose⟩
    · rw [hvis]
      exact List.erase_cons_head _ _
    · intro m hm hc
      rcases List.mem_cons.mp hm with rfl | hm2
      · exact hC (onCycle_rotate hc hRnr)
      · exact hIv m hm2 hc
    · intro hc
      exact hC (onCycle_rotate hc hRnr)
  | case6 name path st token htok h1 h2 hnoalias =>
    intro hv hch hInv
    cases hvv : token.value with
    | «alias» r => exact absurd hvv (hnoalias r)
    | value pl =>
      rw [resolveRef_value path st htok h1 h2 hvv]
      dsimp only
      refine ⟨⟨[], (List.append_nil _).symm⟩, List.erase_cons_head _ _, ?_, ?_,
        fun c hc => Or.inl hc⟩
      · intro m hm hc
        rcases List.mem_cons.mp hm with rfl | hm2
        · exact absurd hc (not_onCycle_of_value htok hvv)
        · exact hInv m hm2 hc
      · intro hc
        exact absurd hc (not_onCycle_of_value htok hvv)

lemma detect_fold (tokens : List (String × NormalizedToken)) :
    ∀ (entries : List (String × NormalizedToken)) (st : DetectState),
      st.visiting = [] →
      (∀ m ∈ st.visited, OnCycle tokens m → st.cycles ≠ []) →
      (∀ c ∈ st.cycles, c ≠ [] ∧ c.head? = c.getLast? ∧ HasCycle tokens) →
      (∃ ext, (entries.foldl
          (fun st p => if st.visited.contains p.1 then st
                       else (resolveRef tokens p.1 [] st).1) st).cycles =
        st.cycles ++ ext) ∧
      (entries.foldl
          (fun st p => if st.visited.contains p.1 then st
                       else (resolveRef tokens p.1 [] st).1) st).visiting = [] ∧
      (∀ m ∈ (entries.foldl
          (fun st p => if st.visited.contains p.1 then st
                       else (resolveRef tokens p.1 [] st).1) st).visited,
        OnCycle tokens m →
        (entries.foldl
          (fun st p => if st.visited.contains p.1 then st
                       else (resolveRef tokens p.1 [] st).1) st).cycles ≠ []) ∧
      (∀ c ∈ (entries.foldl
          (fun st p => if st.visited.contains p.1 then st
                       else (resolveRef tokens p.1 [] st).1) st).cycles,
        c ≠ [] ∧ c.head? = c.getLast? ∧ HasCycle tokens) ∧
      (∀ p ∈ entries, OnCycle tokens p.1 →
        (entries.foldl
          (fun st p => if st.visited.contains p.1 then st
                       else (resolveRef tokens p.1 [] st).1) st).cycles ≠ []) := by
  intro entries
  induction entries with
  | nil =>
    intro st h1 h2 h3
    exact ⟨⟨[], (List.append_nil _).symm⟩, h1, h2, h3,
      fun p hp => absurd hp (List.not_mem_nil _)⟩
  | cons q rest ih =>
    intro st hvempty hInv hclose
    rw [List.foldl_cons]
    by_cases hq : st.visited.contains q.1 = true
    · rw [if_pos hq]
      obtain ⟨hext, hv2, hI2, hcl2, hlast⟩ := ih st hvempty hInv hclose
      refine ⟨hext, hv2, hI2, hcl2, ?_⟩
      intro p hp hc
      rcases List.mem_cons.mp hp with rfl | hp2
      · have h0 : st.cycles ≠ [] := hInv p.1 (List.elem_iff.mp hq) hc
        obtain ⟨ext, hexte⟩ := hext
        rw [hexte]
        intro hcontra
        exact h0 (List.append_eq_nil.mp hcontra).1
      · exact hlast p hp2 hc
    · rw [if_neg hq]
      have hmain := resolveRef_main tokens q.1 [] st
        (by rw [hvempty]; rfl) (by simp) hInv
      obtain ⟨⟨ext1, hext1⟩, hvis1, hIv1, hC1, hcl1⟩ := hmain
      obtain ⟨⟨ext2, hext2⟩, hv2, hI2, hcl2, hlast⟩ :=
        ih ((resolveRef tokens q.1 [] st).1)
          (by rw [hvis1, hvempty]) hIv1
          (fun c hc => (hcl1 c hc).elim (fun hmem => hclose c hmem) (fun h => h))
      refine ⟨⟨ext1 ++ ext2, by rw [hext2, hext1, List.append_assoc]⟩,
        hv2, hI2, hcl2, ?_⟩
      intro p hp hc
      rcases List.mem_cons.mp hp with rfl | hp2
      · have h0 := hC1 hc
        rw [hext2]
        intro hcontra
        exact h0 (List.append_eq_nil.mp hcontra).1
      · exact hlast p hp2 hc

lemma onCycle_mem_keys {tokens : List (String × NormalizedToken)} {n : String}
    (h : OnCycle tokens n) : ∃ p ∈ tokens, p.1 = n := by
  obtain ⟨k, hk, hit⟩ := h
  obtain ⟨k0, rfl⟩ : ∃ k0, k = k0 + 1 := ⟨k - 1, by omega⟩
  rw [aliasIter] at hit
  cases halo : alookup tokens n with
  | none =>
    exfalso
    have hnone : aliasNext tokens n = none := by
      show (match alookup tokens n with
            | some tok =>
              match tok.value with
              | TokenValueOrAlias.alias r => some r
              | _ => none
            | none => none) = none
      rw [halo]
    rw [hnone] at hit
    cases hit
  | some tok =>
    have hmem := alookup_mem_keys halo
    obtain ⟨p, hp, hp1⟩ := List.mem_map.mp hmem
    exact ⟨p, hp, hp1⟩

/-- C4: the detector is sound and complete for the functional alias graph
(edges from each token name to its primary value's alias reference): a set
whose graph has a directed cycle is reported with `hasCircular = true` and at
least one recorded cycle; an acyclic set is reported clean with an empty
cycle list; and every recorded cycle is a nonempty name list that closes back
on its first element. -/
theorem detectCircularReferences_correct (tokens : List (String × NormalizedToken)) :
    (HasCycle tokens →
      (detectCircularReferences tokens).hasCircular = true ∧
      (detectCircularReferences tokens).cycles ≠ []) ∧
    (¬ HasCycle tokens →
      (detectCircularReferences tokens).hasCircular = false ∧
      (detectCircularReferences tokens).cycles = []) ∧
    (∀ c ∈ (detectCircularReferences tokens).cycles,
      c ≠ [] ∧ c.head? = c.getLast?) := by
  obtain ⟨hext, hvfin, hIfin, hclfin, hlast⟩ := detect_fold tokens tokens
    ⟨[], [], []⟩ rfl
    (fun m hm => absurd hm (List.not_mem_nil _))
    (fun c hc => absurd hc (List.not_mem_nil _))
  have hdet : detectCircularReferences tokens =
      { hasCircular := decide (0 < (tokens.foldl
          (fun (st : DetectState) (p : String × NormalizedToken) =>
            if st.visited.contains p.1 then st
                       else (resolveRef tokens p.1 [] st).1)
          ⟨[], [], []⟩).cycles.length),
        cycles := (tokens.foldl
          (fun (st : DetectState) (p : String × NormalizedToken) =>
            if st.visited.contains p.1 then st
                       else (resolveRef tokens p.1 [] st).1)
          ⟨[], [], []⟩).cycles } := rfl
  refine ⟨?_, ?_, ?_⟩
  · rintro ⟨n, honc⟩
    obtain ⟨p, hp, hp1⟩ := onCycle_mem_keys honc
    have hne : (tokens.foldl
        (fun (st : DetectState) (p : String × NormalizedToken) =>
            if st.visited.contains p.1 then st
                     else (resolveRef tokens p.1 [] st).1)
        ⟨[], [], []⟩).cycles ≠ [] := hlast p hp (hp1 ▸ honc)
    rw [hdet]
    refine ⟨?_, hne⟩
    simp only [decide_eq_true_eq]
    exact List.length_pos.mpr hne
  · intro hnc
    have hnil : (tokens.foldl
        (fun (st : DetectState) (p : String × NormalizedToken) =>
            if st.visited.contains p.1 then st
                     else (resolveRef tokens p.1 [] st).1)
        ⟨[], [], []⟩).cycles = [] := by
      by_contra hne
      obtain ⟨c, hc⟩ := List.exists_mem_of_ne_nil _ hne
      exact hnc (hclfin c hc).2.2
    rw [hdet]
    constructor
    · simp only [hnil]
      rfl
    · exact hnil
  · intro c hc
    rw [hdet] at hc
    exact ⟨(hclfin c hc).1, (hclfin c hc).2.1⟩

/-- A two-token set whose alias graph is the two-cycle `a → b → a`. -/
def cycTokensC4 : List (String × NormalizedToken) :=
  [("a", { id := "a", name := "a", type := "color",
           value := TokenValueOrAlias.alias "b", modes := [],
           description := none, source := "dtcg", sourceId := none }),
   ("b", { id := "b", name := "b", type := "color",
           value := TokenValueOrAlias.alias "a", modes := [],
           description := none, source := "dtcg", sourceId := none })]

/-- C4 witness: the detector flags the concrete two-cycle `a → b → a`. -/
theorem detectCircularReferences_correct_witness :
    (detectCircularReferences cycTokensC4).hasCircular = true ∧
    (detectCircularReferences cycTokensC4).cycles ≠ [] :=
  (detectCircularReferences_correct cycTokensC4).1 ⟨"a", 2, by decide, by decide⟩
